import Mathlib

/-!
# present/style.go: font markers to HTML

A shallow embedding of `src/present/style.go` (functions `style`, `font` and
`split`) together with the parts of the Go standard library they call.

A Go string is a sequence of bytes; `range` and `utf8.DecodeRuneInString` read
it as UTF-8.  Strings are therefore embedded as lists of byte values, runes as
natural numbers, and the UTF-8 decoder and encoder are embedded as Go defines
them.  An index or slice expression out of range makes the embedded function
return `none`.
-/

namespace Present

/-- A Go string: its bytes, in order. -/
abbrev Str := List Nat

/-! ## unicode/utf8 -/

/-- The rune `utf8.RuneError`, U+FFFD. -/
def runeError : Nat := 0xFFFD

/-- Table `utf8.first` with `utf8.acceptRanges`: for a leading byte, the size of
the encoding it starts and the range accepted for the second byte.  Size 1 is
ASCII (`as`), size 0 an invalid leading byte (`xx`). -/
def firstInfo (s0 : Nat) : Nat × Nat × Nat :=
  if s0 < 0x80 then (1, 0, 0)
  else if s0 < 0xC2 then (0, 0, 0)
  else if s0 < 0xE0 then (2, 0x80, 0xBF)
  else if s0 = 0xE0 then (3, 0xA0, 0xBF)
  else if s0 < 0xED then (3, 0x80, 0xBF)
  else if s0 = 0xED then (3, 0x80, 0x9F)
  else if s0 < 0xF0 then (3, 0x80, 0xBF)
  else if s0 = 0xF0 then (4, 0x90, 0xBF)
  else if s0 < 0xF4 then (4, 0x80, 0xBF)
  else if s0 = 0xF4 then (4, 0x80, 0x8F)
  else (0, 0, 0)

/-- Go `utf8.DecodeRuneInString`: the first rune of `s` and its width in bytes;
`(RuneError, 0)` on the empty string and `(RuneError, 1)` on an invalid
encoding.  `x & mask` is written `x % 2^k`, a shift `x << k` is `x * 2^k`, and
`|` of disjoint bit fields is `+`. -/
def decodeRuneInString (s : Str) : Nat × Nat :=
  match s with
  | [] => (runeError, 0)
  | s0 :: _ =>
    let x := firstInfo s0
    if x.1 = 1 then (s0, 1)
    else if x.1 = 0 then (runeError, 1)
    else if s.length < x.1 then (runeError, 1)
    else
      let s1 := s.getD 1 0
      if s1 < x.2.1 ∨ x.2.2 < s1 then (runeError, 1)
      else if x.1 ≤ 2 then ((s0 % 32) * 64 + s1 % 64, 2)
      else
        let s2 := s.getD 2 0
        if s2 < 0x80 ∨ 0xBF < s2 then (runeError, 1)
        else if x.1 ≤ 3 then ((s0 % 16) * 4096 + (s1 % 64) * 64 + s2 % 64, 3)
        else
          let s3 := s.getD 3 0
          if s3 < 0x80 ∨ 0xBF < s3 then (runeError, 1)
          else ((s0 % 8) * 262144 + (s1 % 64) * 4096 + (s2 % 64) * 64 + s3 % 64, 4)

/-- Go `utf8.AppendRune` on an empty buffer, which is what
`bytes.Buffer.WriteRune` appends: the UTF-8 encoding of `r`, and the encoding of
`RuneError` for a surrogate or a value above `utf8.MaxRune`. -/
def encodeRune (r : Nat) : Str :=
  if r ≤ 0x7F then [r]
  else if r ≤ 0x7FF then [0xC0 + r / 64, 0x80 + r % 64]
  else if 0x10FFFF < r ∨ (0xD800 ≤ r ∧ r ≤ 0xDFFF) then [0xEF, 0xBF, 0xBD]
  else if r ≤ 0xFFFF then [0xE0 + r / 4096, 0x80 + (r / 64) % 64, 0x80 + r % 64]
  else [0xF0 + r / 262144, 0x80 + (r / 4096) % 64, 0x80 + (r / 64) % 64, 0x80 + r % 64]

/-- Go `utf8.ValidRune`: a Unicode scalar value. -/
def validRune (r : Nat) : Bool :=
  r < 0xD800 || (0xDFFF < r && r ≤ 0x10FFFF)

/-- The runes of `s` with the bytes each was decoded from, as a `range` loop or
repeated `utf8.DecodeRuneInString` reads them.  At most `fuel` runes are read;
`s.length` is always enough, since every rune is at least one byte wide. -/
def chunksFrom : Nat → Str → List (Nat × Str)
  | 0, _ => []
  | _ + 1, [] => []
  | fuel + 1, b :: t =>
    let d := decodeRuneInString (b :: t)
    (d.1, (b :: t).take d.2) :: chunksFrom fuel ((b :: t).drop d.2)

/-- The runes of `s`, each with its bytes. -/
def chunks (s : Str) : List (Nat × Str) := chunksFrom s.length s

/-- The pairs `(i, r)` of `for i, r := range s`, from the decoded runes: `i` is
the byte offset of the rune. -/
def rangeIdx : Nat → List (Nat × Str) → List (Nat × Nat)
  | _, [] => []
  | i, (r, c) :: t => (i, r) :: rangeIdx (i + c.length) t

/-- The pairs `(i, r)` that `for i, r := range s` iterates over. -/
def rangeString (s : Str) : List (Nat × Nat) := rangeIdx 0 (chunks s)

/-- The runes that `for _, r := range s` iterates over. -/
def runes (s : Str) : List Nat := (chunks s).map Prod.fst

/-- The bytes of a sequence of decoded runes. -/
def chunkBytes (g : List (Nat × Str)) : Str := (g.map Prod.snd).flatten

/-- Each decoded rune below 0x80 is a single byte, itself; each other rune is
made of bytes that are at least 0x80. -/
def ChunkOK (p : Nat × Str) : Prop :=
  (p.1 < 0x80 ∧ p.2 = [p.1]) ∨ (0x80 ≤ p.1 ∧ p.2 ≠ [] ∧ ∀ x ∈ p.2, 0x80 ≤ x)

/-- The UTF-8 encoding of a sequence of runes: the Go string whose characters
they are. -/
def utf8 : List Nat → Str
  | [] => []
  | r :: t => encodeRune r ++ utf8 t

/-! ## unicode -/

/-- Go `unicode.IsSpace`: the Latin-1 spaces are listed in the function, the
others are the table `unicode.White_Space`. -/
def isSpace (r : Nat) : Bool :=
  if r ≤ 0xFF then
    r = 0x09 || r = 0x0A || r = 0x0B || r = 0x0C || r = 0x0D || r = 0x20 || r = 0x85 || r = 0xA0
  else
    r = 0x1680 || (0x2000 ≤ r && r ≤ 0x200A) || r = 0x2028 || r = 0x2029 || r = 0x202F ||
      r = 0x205F || r = 0x3000

/-! ## Slices and indices -/

/-- Go `s[lo:hi]`: out of range unless `0 ≤ lo ≤ hi ≤ len(s)`. -/
def slice? (s : Str) (lo hi : Int) : Option Str :=
  if 0 ≤ lo ∧ lo ≤ hi ∧ hi ≤ (s.length : Int) then
    some ((s.drop lo.toNat).take (hi.toNat - lo.toNat))
  else none

/-- Go `s[i]`: out of range unless `0 ≤ i < len(s)`. -/
def index? (s : Str) (i : Int) : Option Nat :=
  if 0 ≤ i then s.get? i.toNat else none

/-! ## strings and html -/

/-- Go `strings.IndexAny(s, chars)` for ASCII `chars`: the index of the first
byte of `s` that is one of `chars`, or -1. -/
def indexAny : Str → Str → Int
  | [], _ => -1
  | b :: t, chars =>
    if chars.contains b then 0
    else
      let k := indexAny t chars
      if k = -1 then -1 else k + 1

/-- The scan of `strings.LastIndex`: `i` is the offset of `s` in the whole
string and `acc` the last match found before it. -/
def lastIndexFrom (substr : Str) : Str → Int → Int → Int
  | [], i, acc => if substr = [] then i else acc
  | b :: t, i, acc =>
    lastIndexFrom substr t (i + 1) (if substr.isPrefixOf (b :: t) then i else acc)

/-- Go `strings.LastIndex(s, substr)`: the index of the last instance of
`substr` in `s`, or -1. -/
def lastIndex (s substr : Str) : Int := lastIndexFrom substr s 0 (-1)

/-- Go `strings.ContainsRune(s, r)`: whether the code point `r` is within `s`. -/
def containsRune (s : Str) (r : Nat) : Bool := (runes s).contains r

/-- One byte under the replacer of `html.EscapeString`. -/
def escapeByte (b : Nat) : Str :=
  if b = 0x26 then [0x26, 0x61, 0x6D, 0x70, 0x3B]        -- &amp;
  else if b = 0x27 then [0x26, 0x23, 0x33, 0x39, 0x3B]   -- &#39;
  else if b = 0x3C then [0x26, 0x6C, 0x74, 0x3B]         -- &lt;
  else if b = 0x3E then [0x26, 0x67, 0x74, 0x3B]         -- &gt;
  else if b = 0x22 then [0x26, 0x23, 0x33, 0x34, 0x3B]   -- &#34;
  else [b]

/-- Go `html.EscapeString`: `&`, `'`, `<`, `>` and `"` are replaced by
`&amp;`, `&#39;`, `&lt;`, `&gt;` and `&#34;`. -/
def escapeString : Str → Str
  | [] => []
  | b :: t => escapeByte b ++ escapeString t

/-! ## split -/

/-- The loop of `split` over the pairs `(i, r)` of `range s`, with the local
variables `words`, `prevWasSpace` and `mark`; the result is `words` and `mark`
after the loop. -/
def splitLoop (s : Str) : List (Nat × Nat) → List Str → Bool → Nat → Option (List Str × Nat)
  | [], words, _, mark => some (words, mark)
  | (i, r) :: rest, words, prevWasSpace, mark =>
    let isSp := isSpace r
    if isSp != prevWasSpace && decide (i > mark) then
      match slice? s mark i with
      | none => none
      | some w => splitLoop s rest (words ++ [w]) isSp i
    else splitLoop s rest words isSp mark

/-- The end of `split`: the run after the last change of category, if any. -/
def splitEnd (s : Str) (words : List Str) (mark : Nat) : Option (List Str) :=
  if mark < s.length then
    match slice? s mark s.length with
    | none => none
    | some w => some (words ++ [w])
  else some words

/-- Go `split`: like `strings.Fields` but also returns the runs of spaces. -/
def split (s : Str) : Option (List Str) :=
  match splitLoop s (rangeString s) [] false 0 with
  | none => none
  | some (words, mark) => splitEnd s words mark

/-- The loop of `split` without indices: `cur` is the run `s[mark:i]` read so
far, `prev` is `prevWasSpace`, the argument is the runes from `i` on. -/
def runsFrom (cur : Str) (prev : Bool) : List (Nat × Str) → List Str
  | [] => if cur = [] then [] else [cur]
  | (r, c) :: t =>
    if (isSpace r != prev) && !cur.isEmpty then cur :: runsFrom c (isSpace r) t
    else runsFrom (cur ++ c) (isSpace r) t

/-- The maximal runs of elements of equal class, in order. -/
def groupRuns {α : Type} (cls : α → Bool) : List α → List (List α)
  | [] => []
  | a :: l =>
    match groupRuns cls l with
    | [] => [[a]]
    | g :: gs => if g.head?.map cls = some (cls a) then (a :: g) :: gs else [a] :: g :: gs

/-- Every character of `t` is a space (`unicode.IsSpace`). -/
def allSpace (t : Str) : Bool := (runes t).all isSpace

/-- No character of `t` is a space (`unicode.IsSpace`). -/
def noSpace (t : Str) : Bool := (runes t).all fun r => !isSpace r

/-! ## font -/

/-- The constant `punctuation` of `font`: the bytes of the string
.,;:()!?—–'" (the two dashes are three bytes each). -/
def punctuation : Str :=
  [0x2E, 0x2C, 0x3B, 0x3A, 0x28, 0x29, 0x21, 0x3F, 0xE2, 0x80, 0x94, 0xE2, 0x80, 0x93, 0x27, 0x22]

/-- The runes of `punctuation`. -/
def punctRunes : List Nat :=
  [0x2E, 0x2C, 0x3B, 0x3A, 0x28, 0x29, 0x21, 0x3F, 0x2014, 0x2013, 0x27, 0x22]

/-- The constant `marker` of `font`: underscore, asterisk, back quote. -/
def marker : Str := [0x5F, 0x2A, 0x60]

/-- The two loops `for _, r := range t { if !strings.ContainsRune(punctuation, r)
{ continue Word } }`: true when the loop runs to its end. -/
def allPunct (t : Str) : Bool := (rangeString t).all fun ir => containsRune punctuation ir.2

/-- The `switch char` of `font`: the opening and closing tag for a marker
byte, `none` in the `default` case. -/
def tagsFor (char : Nat) : Option (Str × Str) :=
  if char = 0x5F then some ([0x3C, 0x69, 0x3E], [0x3C, 0x2F, 0x69, 0x3E])   -- <i> </i>
  else if char = 0x2A then some ([0x3C, 0x62, 0x3E], [0x3C, 0x2F, 0x62, 0x3E])   -- <b> </b>
  else if char = 0x60 then
    some ([0x3C, 0x63, 0x6F, 0x64, 0x65, 0x3E], [0x3C, 0x2F, 0x63, 0x6F, 0x64, 0x65, 0x3E])   -- <code> </code>
  else none

/-- The loop `for i := 1; i < len(head)-1; i += wid` of `font`, from index `i`
with buffer `b`; the result is the buffer after the loop.  `none` when
`head[i+1]` is out of range, or after `fuel` iterations. -/
def bodyLoop (head : Str) (char : Nat) : Nat → Nat → Str → Option Str
  | 0, _, _ => none
  | fuel + 1, i, b =>
    if (i : Int) < (head.length : Int) - 1 then
      let d := decodeRuneInString (head.drop i)
      if d.1 ≠ char then
        -- Ordinary character.
        bodyLoop head char fuel (i + d.2) (b ++ encodeRune d.1)
      else
        match index? head ((i : Int) + 1) with
        | none => none
        | some c =>
          if c ≠ char then
            -- Inner char becomes space.
            bodyLoop head char fuel (i + d.2) (b ++ encodeRune 0x20)
          else
            -- Doubled char becomes real char.
            bodyLoop head char fuel (i + (d.2 + 1)) (b ++ [char])
    else some b

/-- What one iteration of the loop `Word` of `font` does with its word: one
of the six `continue Word`, the assignment `words[w] = b.String()`, or an
index or slice out of range. -/
inductive WordOutcome where
  | short          -- len(word) < 2
  | noMarker       -- first == -1
  | leadNotPunct   -- a rune before the marker is not punctuation
  | switchDefault  -- the default case of the switch
  | loneMarker     -- last == 0
  | tailNotPunct   -- a rune after the last marker is not punctuation
  | styled (out : Str)
  | fault
  deriving DecidableEq, Repr

/-- The body of the loop `Word` of `font` for one word. -/
def fontWord (word : Str) : WordOutcome :=
  if word.length < 2 then .short
  else
    -- Initial punctuation is OK but must be peeled off.
    let first := indexAny word marker
    if first = -1 then .noMarker
    else
      match slice? word 0 first with
      | none => .fault
      | some lead =>
        -- Is the marker prefixed only by punctuation?
        if !allPunct lead then .leadNotPunct
        else
          match slice? word first word.length with
          | none => .fault
          | some word1 =>
            match index? word1 0 with
            | none => .fault
            | some char =>
              match tagsFor char with
              | none => .switchDefault
              | some (otag, ctag) =>
                let opn := lead ++ otag
                -- Terminal punctuation is OK but must be peeled off.
                match slice? word1 0 1 with
                | none => .fault
                | some c1 =>
                  let last := lastIndex word1 c1
                  if last = 0 then .loneMarker
                  else
                    match slice? word1 0 (last + 1), slice? word1 (last + 1) word1.length with
                    | some head, some tail =>
                      if !allPunct tail then .tailNotPunct
                      else
                        match bodyLoop head char head.length 1 opn with
                        | none => .fault
                        | some b => .styled (b ++ ctag ++ tail)
                    | _, _ => .fault

/-- The value of `words[w]` after the iteration for `word`; `none` when the
iteration faults. -/
def wordResult (word : Str) : WordOutcome → Option Str
  | .styled out => some out
  | .fault => none
  | _ => some word

/-- The loop `Word` of `font` over all the words. -/
def fontWords : List Str → Option (List Str)
  | [] => some []
  | word :: rest =>
    match wordResult word (fontWord word), fontWords rest with
    | some w, some ws => some (w :: ws)
    | _, _ => none

/-- Go `font`: `s` with font indicators turned into HTML font tags. -/
def font (s : Str) : Option Str :=
  if indexAny s [0x60, 0x5F, 0x2A] = -1 then some s
  else
    match split s with
    | none => none
    | some words =>
      match fontWords words with
      | none => none
      | some ws => some ws.flatten

/-- Go `style`: escape, then `font`. -/
def style (s : Str) : Option Str := font (escapeString s)

/-- The rewriting of the body of a span as the specification states it, on
the characters of the body alone: a marker followed by a second marker becomes
one marker and both are consumed, any other marker becomes a space, every other
character is copied. -/
def rewriteSpec (m : Nat) : List Nat → List Nat
  | [] => []
  | [c] => if c ≠ m then [c] else [0x20]
  | c :: d :: u =>
    if c ≠ m then c :: rewriteSpec m (d :: u)
    else if d = m then m :: rewriteSpec m u
    else 0x20 :: rewriteSpec m (d :: u)

/-- The rewriting of the body of a span as the loop of `font` does it: as
`rewriteSpec`, but the byte after the last character of the body, which is the
closing marker, also counts as a second marker. -/
def rewriteLookahead (m : Nat) : List Nat → List Nat
  | [] => []
  | [c] => if c ≠ m then [c] else [m]
  | c :: d :: u =>
    if c ≠ m then c :: rewriteLookahead m (d :: u)
    else if d = m then m :: rewriteLookahead m u
    else 0x20 :: rewriteLookahead m (d :: u)

/-- The six tags that `font` inserts: `<i>`, `</i>`, `<b>`, `</b>`, `<code>`,
`</code>`. -/
def tagList : List Str :=
  [[0x3C, 0x69, 0x3E], [0x3C, 0x2F, 0x69, 0x3E], [0x3C, 0x62, 0x3E], [0x3C, 0x2F, 0x62, 0x3E],
    [0x3C, 0x63, 0x6F, 0x64, 0x65, 0x3E], [0x3C, 0x2F, 0x63, 0x6F, 0x64, 0x65, 0x3E]]

/-- The five entities that `html.EscapeString` produces: `&amp;`, `&lt;`,
`&gt;`, `&#34;`, `&#39;`. -/
def entityList : List Str :=
  [[0x26, 0x61, 0x6D, 0x70, 0x3B], [0x26, 0x6C, 0x74, 0x3B], [0x26, 0x67, 0x74, 0x3B],
    [0x26, 0x23, 0x33, 0x34, 0x3B], [0x26, 0x23, 0x33, 0x39, 0x3B]]

/-- The bytes that follow the ampersand in an entity. -/
def entBytes : List Nat := [0x61, 0x6D, 0x70, 0x3B, 0x6C, 0x74, 0x67, 0x23, 0x33, 0x34, 0x39]

/-- Every `&` in `y` begins one of the entities. -/
def AmpOK (y : Str) : Prop :=
  ∀ pre post, y = pre ++ 0x26 :: post → ∃ e ∈ entityList, e <+: 0x26 :: post

/-- Every `<` in `y` is the first byte of an occurrence of a tag. -/
def LtOK (y : Str) : Prop :=
  ∀ pre post, y = pre ++ 0x3C :: post → ∃ t ∈ tagList, t <+: 0x3C :: post

/-- Every `>` in `y` is the last byte of an occurrence of a tag. -/
def GtOK (y : Str) : Prop :=
  ∀ pre post, y = pre ++ 0x3E :: post → ∃ t ∈ tagList, t <:+ pre ++ [0x3E]

/-- No unescaped `<`, `>` or `&` outside the tags. -/
def Safe (y : Str) : Prop := AmpOK y ∧ LtOK y ∧ GtOK y

/-- The function `font` with the initial early return removed: split, rewrite
each word, join. -/
def fontFull (s : Str) : Option Str :=
  match split s with
  | none => none
  | some words =>
    match fontWords words with
    | none => none
    | some ws => some ws.flatten

/-- The value of `words[w]` after the iteration for `word`, given that the
iteration does not fault. -/
def wordOut (word : Str) : Str := (wordResult word (fontWord word)).getD word

/-- The tags that occur in `y`, read left to right: at each byte, the tag that
begins there, if one does. -/
def tagsOf : Str → List Str
  | [] => []
  | b :: t =>
    match tagList.find? (fun tg => tg.isPrefixOf (b :: t)) with
    | some tg => tg :: tagsOf t
    | none => tagsOf t

/-- The opening and the closing tag of each kind: the pairs of `tagsFor`. -/
def tagPairs : List (Str × Str) :=
  [([0x3C, 0x69, 0x3E], [0x3C, 0x2F, 0x69, 0x3E]), ([0x3C, 0x62, 0x3E], [0x3C, 0x2F, 0x62, 0x3E]),
    ([0x3C, 0x63, 0x6F, 0x64, 0x65, 0x3E], [0x3C, 0x2F, 0x63, 0x6F, 0x64, 0x65, 0x3E])]

/-- A sequence of tags that is a concatenation of pairs, each an opening tag
followed by the closing tag of the same kind. -/
def pairedTags : List Str → Bool
  | [] => true
  | [_] => false
  | o :: c :: t => tagPairs.contains (o, c) && pairedTags t

/-- The loop of Go `strings.FieldsFunc(s, f)` over the runes of `s`: `cur` is
the field being read (`s[start:end]` when `start >= 0`), `none` between
fields. -/
def fieldsLoop (f : Nat → Bool) : Option Str → List (Nat × Str) → List Str
  | cur, [] =>
    match cur with
    | none => []
    | some w => [w]
  | cur, (r, c) :: t =>
    if f r then
      match cur with
      | none => fieldsLoop f none t
      | some w => w :: fieldsLoop f none t
    else fieldsLoop f (some (cur.getD [] ++ c)) t

/-- Go `strings.FieldsFunc(s, f)`: `s` split around each run of characters
that satisfy `f`; the fields are the maximal runs of the other characters. -/
def fieldsFunc (f : Nat → Bool) (s : Str) : List Str := fieldsLoop f none (chunks s)

/-- Go `strings.Fields(s)`: `s` split around each run of white space, as
`unicode.IsSpace` defines it. -/
def fields (s : Str) : List Str := fieldsFunc isSpace s

/-- A run of decoded runes begins with a rune that does not satisfy `f`. -/
def isField (f : Nat → Bool) (g : List (Nat × Str)) : Bool :=
  match g.head? with
  | some p => !f p.1
  | none => false

/-- The bytes of a Lean string literal, to write inputs and outputs. -/
def bytes (s : String) : Str := utf8 (s.toList.map Char.toNat)

/-! ## Facts about the UTF-8 decoder and encoder -/

theorem firstInfo_ascii {b : Nat} (h : b < 0x80) : firstInfo b = (1, 0, 0) := by
  unfold firstInfo; rw [if_pos h]

theorem firstInfo_two {b : Nat} (h1 : 0xC2 ≤ b) (h2 : b < 0xE0) :
    firstInfo b = (2, 0x80, 0xBF) := by
  unfold firstInfo
  rw [if_neg (by omega), if_neg (by omega), if_pos h2]

theorem firstInfo_three {b : Nat} (h1 : 0xE0 ≤ b) (h2 : b < 0xF0) :
    ∃ lo hi, firstInfo b = (3, lo, hi) ∧ 0x80 ≤ lo ∧ hi ≤ 0xBF ∧
      (b = 0xE0 → lo = 0xA0) ∧ (¬ b = 0xE0 → lo = 0x80) ∧
      (b = 0xED → hi = 0x9F) ∧ (¬ b = 0xED → hi = 0xBF) := by
  unfold firstInfo
  rw [if_neg (by omega), if_neg (by omega), if_neg (by omega)]
  by_cases e0 : b = 0xE0
  · rw [if_pos e0]
    exact ⟨_, _, rfl, by omega, by omega, by omega, by omega, by omega, by omega⟩
  · rw [if_neg e0]
    by_cases e1 : b < 0xED
    · rw [if_pos e1]
      exact ⟨_, _, rfl, by omega, by omega, by omega, by omega, by omega, by omega⟩
    · rw [if_neg e1]
      by_cases e2 : b = 0xED
      · rw [if_pos e2]
        exact ⟨_, _, rfl, by omega, by omega, by omega, by omega, by omega, by omega⟩
      · rw [if_neg e2, if_pos h2]
        exact ⟨_, _, rfl, by omega, by omega, by omega, by omega, by omega, by omega⟩

theorem firstInfo_four {b : Nat} (h1 : 0xF0 ≤ b) (h2 : b < 0xF5) :
    ∃ lo hi, firstInfo b = (4, lo, hi) ∧ 0x80 ≤ lo ∧ hi ≤ 0xBF ∧
      (b = 0xF0 → lo = 0x90) ∧ (¬ b = 0xF0 → lo = 0x80) ∧
      (b = 0xF4 → hi = 0x8F) ∧ (¬ b = 0xF4 → hi = 0xBF) := by
  unfold firstInfo
  rw [if_neg (by omega), if_neg (by omega), if_neg (by omega), if_neg (by omega), if_neg (by omega),
    if_neg (by omega), if_neg (by omega)]
  by_cases e0 : b = 0xF0
  · rw [if_pos e0]
    exact ⟨_, _, rfl, by omega, by omega, by omega, by omega, by omega, by omega⟩
  · rw [if_neg e0]
    by_cases e1 : b < 0xF4
    · rw [if_pos e1]
      exact ⟨_, _, rfl, by omega, by omega, by omega, by omega, by omega, by omega⟩
    · rw [if_neg e1, if_pos (by omega)]
      exact ⟨_, _, rfl, by omega, by omega, by omega, by omega, by omega, by omega⟩

theorem firstInfo_bad {b : Nat} (h : (0x80 ≤ b ∧ b < 0xC2) ∨ 0xF5 ≤ b) :
    firstInfo b = (0, 0, 0) := by
  unfold firstInfo
  rw [if_neg (by omega)]
  by_cases e0 : b < 0xC2
  · rw [if_pos e0]
  · rw [if_neg e0, if_neg (by omega), if_neg (by omega), if_neg (by omega), if_neg (by omega),
      if_neg (by omega), if_neg (by omega), if_neg (by omega), if_neg (by omega)]

theorem decode_bad {b : Nat} (t : Str) (hf : firstInfo b = (0, 0, 0)) :
    decodeRuneInString (b :: t) = (runeError, 1) := by
  simp only [decodeRuneInString, hf]
  simp

theorem decode_short {b sz lo hi : Nat} (t : Str) (hf : firstInfo b = (sz, lo, hi))
    (h2 : 2 ≤ sz) (hl : t.length + 1 < sz) :
    decodeRuneInString (b :: t) = (runeError, 1) := by
  simp only [decodeRuneInString, hf, List.length_cons]
  rw [if_neg (by omega), if_neg (by omega), if_pos hl]

theorem decode_sz2 {b lo hi : Nat} {s1 : Nat} {t : Str} (hf : firstInfo b = (2, lo, hi)) :
    decodeRuneInString (b :: s1 :: t) =
      if s1 < lo ∨ hi < s1 then (runeError, 1) else ((b % 32) * 64 + s1 % 64, 2) := by
  simp only [decodeRuneInString, hf, List.length_cons, List.getD_cons_succ, List.getD_cons_zero]
  rw [if_neg (by omega), if_neg (by omega), if_neg (by omega)]
  simp only [le_refl, if_true]

theorem decode_sz3 {b lo hi : Nat} {s1 s2 : Nat} {t : Str} (hf : firstInfo b = (3, lo, hi)) :
    decodeRuneInString (b :: s1 :: s2 :: t) =
      if s1 < lo ∨ hi < s1 then (runeError, 1)
      else if s2 < 0x80 ∨ 0xBF < s2 then (runeError, 1)
      else ((b % 16) * 4096 + (s1 % 64) * 64 + s2 % 64, 3) := by
  simp only [decodeRuneInString, hf, List.length_cons, List.getD_cons_succ, List.getD_cons_zero]
  simp

theorem decode_sz4 {b lo hi : Nat} {s1 s2 s3 : Nat} {t : Str} (hf : firstInfo b = (4, lo, hi)) :
    decodeRuneInString (b :: s1 :: s2 :: s3 :: t) =
      if s1 < lo ∨ hi < s1 then (runeError, 1)
      else if s2 < 0x80 ∨ 0xBF < s2 then (runeError, 1)
      else if s3 < 0x80 ∨ 0xBF < s3 then (runeError, 1)
      else ((b % 8) * 262144 + (s1 % 64) * 4096 + (s2 % 64) * 64 + s3 % 64, 4) := by
  simp only [decodeRuneInString, hf, List.length_cons, List.getD_cons_succ, List.getD_cons_zero]
  simp

theorem decode_ascii (b : Nat) (t : Str) (h : b < 0x80) :
    decodeRuneInString (b :: t) = (b, 1) := by
  simp only [decodeRuneInString, firstInfo_ascii h, if_true]

theorem decode_encode (r : Nat) (rest : Str) (h : validRune r = true) :
    decodeRuneInString (encodeRune r ++ rest) = (r, (encodeRune r).length) := by
  simp only [validRune, Bool.or_eq_true, Bool.and_eq_true, decide_eq_true_eq] at h
  unfold encodeRune
  split_ifs with h1 h2 h3 h4
  · exact decode_ascii r rest (by omega)
  · have hf := @firstInfo_two (0xC0 + r / 64) (by omega) (by omega)
    simp only [List.cons_append, List.nil_append]
    rw [decode_sz2 hf, if_neg (by omega)]
    simp only [List.length_cons, List.length_nil, Prod.mk.injEq]
    exact ⟨by omega, trivial⟩
  · omega
  · obtain ⟨lo, hi, hf, -, -, e1, e2, e3, e4⟩ := @firstInfo_three (0xE0 + r / 4096) (by omega) (by omega)
    simp only [List.cons_append, List.nil_append]
    rw [decode_sz3 hf, if_neg, if_neg]
    · simp only [List.length_cons, List.length_nil, Prod.mk.injEq]
      exact ⟨by omega, trivial⟩
    · omega
    · by_cases c1 : 0xE0 + r / 4096 = 0xE0 <;> by_cases c2 : 0xE0 + r / 4096 = 0xED <;>
        simp only [c1, c2, true_implies, not_true_eq_false, not_false_eq_true, false_implies] at e1 e2 e3 e4 <;> omega
  · obtain ⟨lo, hi, hf, -, -, e1, e2, e3, e4⟩ := @firstInfo_four (0xF0 + r / 262144) (by omega) (by omega)
    simp only [List.cons_append, List.nil_append]
    rw [decode_sz4 hf, if_neg, if_neg, if_neg]
    · simp only [List.length_cons, List.length_nil, Prod.mk.injEq]
      exact ⟨by omega, trivial⟩
    · omega
    · omega
    · by_cases c1 : 0xF0 + r / 262144 = 0xF0 <;> by_cases c2 : 0xF0 + r / 262144 = 0xF4 <;>
        simp only [c1, c2, true_implies, not_true_eq_false, not_false_eq_true, false_implies] at e1 e2 e3 e4 <;> omega
theorem runeError_high : 0x80 ≤ runeError := by decide

/-- What `decodeRuneInString` returns on a non-empty string: a width between 1
and the length; an ASCII byte decodes to itself; otherwise the rune and every
byte consumed are at least 0x80. -/
theorem decode_spec (b : Nat) (t : Str) :
    1 ≤ (decodeRuneInString (b :: t)).2 ∧ (decodeRuneInString (b :: t)).2 ≤ t.length + 1 ∧
    (b < 0x80 → decodeRuneInString (b :: t) = (b, 1)) ∧
    (0x80 ≤ b → 0x80 ≤ (decodeRuneInString (b :: t)).1 ∧
      ∀ x ∈ (b :: t).take (decodeRuneInString (b :: t)).2, 0x80 ≤ x) := by
  have err : decodeRuneInString (b :: t) = (runeError, 1) → 0x80 ≤ b →
      1 ≤ (decodeRuneInString (b :: t)).2 ∧ (decodeRuneInString (b :: t)).2 ≤ t.length + 1 ∧
      (b < 0x80 → decodeRuneInString (b :: t) = (b, 1)) ∧
      (0x80 ≤ b → 0x80 ≤ (decodeRuneInString (b :: t)).1 ∧
        ∀ x ∈ (b :: t).take (decodeRuneInString (b :: t)).2, 0x80 ≤ x) := by
    intro h hb
    rw [h]
    refine ⟨le_refl _, by simp, fun h' => by omega, fun _ => ⟨runeError_high, ?_⟩⟩
    intro x hx
    simp only [List.take_succ_cons, List.take_zero, List.mem_singleton] at hx
    omega
  by_cases h1 : b < 0x80
  · rw [decode_ascii b t h1]
    exact ⟨le_refl _, by simp, fun _ => rfl, fun h' => by omega⟩
  by_cases h2 : b < 0xC2 ∨ 0xF5 ≤ b
  · exact err (decode_bad t (firstInfo_bad (by omega))) (by omega)
  by_cases h3 : b < 0xE0
  · have hf := @firstInfo_two b (by omega) h3
    rcases t with _ | ⟨s1, t1⟩
    · exact err (decode_short _ hf (by omega) (by simp)) (by omega)
    · by_cases hs : s1 < 0x80 ∨ 0xBF < s1
      · exact err (by rw [decode_sz2 hf, if_pos hs]) (by omega)
      · rw [decode_sz2 hf, if_neg hs]
        refine ⟨by omega, by simp, fun h' => by omega, fun _ => ⟨by simp only []; omega, ?_⟩⟩
        intro x hx
        simp only [List.take_succ_cons, List.take_zero, List.mem_cons, List.mem_singleton,
          List.not_mem_nil, or_false] at hx
        omega
  by_cases h4 : b < 0xF0
  · obtain ⟨lo, hi, hf, l1, l2, e1, e2, e3, e4⟩ := @firstInfo_three b (by omega) h4
    rcases t with _ | ⟨s1, _ | ⟨s2, t2⟩⟩
    · exact err (decode_short _ hf (by omega) (by simp)) (by omega)
    · exact err (decode_short _ hf (by omega) (by simp)) (by omega)
    · by_cases hs : s1 < lo ∨ hi < s1
      · exact err (by rw [decode_sz3 hf, if_pos hs]) (by omega)
      by_cases hs2 : s2 < 0x80 ∨ 0xBF < s2
      · exact err (by rw [decode_sz3 hf, if_neg hs, if_pos hs2]) (by omega)
      rw [decode_sz3 hf, if_neg hs, if_neg hs2]
      refine ⟨by omega, by simp, fun h' => by omega, fun _ => ⟨?_, ?_⟩⟩
      · simp only []
        by_cases c1 : b = 0xE0
        · have := e1 c1; omega
        · omega
      · intro x hx
        simp only [List.take_succ_cons, List.take_zero, List.mem_cons, List.mem_singleton,
          List.not_mem_nil, or_false] at hx
        omega
  · obtain ⟨lo, hi, hf, l1, l2, e1, e2, e3, e4⟩ := @firstInfo_four b (by omega) (by omega)
    rcases t with _ | ⟨s1, _ | ⟨s2, _ | ⟨s3, t3⟩⟩⟩
    · exact err (decode_short _ hf (by omega) (by simp)) (by omega)
    · exact err (decode_short _ hf (by omega) (by simp)) (by omega)
    · exact err (decode_short _ hf (by omega) (by simp)) (by omega)
    · by_cases hs : s1 < lo ∨ hi < s1
      · exact err (by rw [decode_sz4 hf, if_pos hs]) (by omega)
      by_cases hs2 : s2 < 0x80 ∨ 0xBF < s2
      · exact err (by rw [decode_sz4 hf, if_neg hs, if_pos hs2]) (by omega)
      by_cases hs3 : s3 < 0x80 ∨ 0xBF < s3
      · exact err (by rw [decode_sz4 hf, if_neg hs, if_neg hs2, if_pos hs3]) (by omega)
      rw [decode_sz4 hf, if_neg hs, if_neg hs2, if_neg hs3]
      refine ⟨by omega, by simp, fun h' => by omega, fun _ => ⟨?_, ?_⟩⟩
      · simp only []
        by_cases c1 : b = 0xF0
        · have := e1 c1; omega
        · omega
      · intro x hx
        simp only [List.take_succ_cons, List.take_zero, List.mem_cons, List.mem_singleton,
          List.not_mem_nil, or_false] at hx
        omega

/-- Decoding reads only the bytes of the rune it returns: bytes appended after
them do not change the result. -/
theorem decode_append (b : Nat) (xt y : Str)
    (hw : (decodeRuneInString (b :: xt ++ y)).2 ≤ xt.length + 1) :
    decodeRuneInString (b :: xt ++ y) = decodeRuneInString (b :: xt) := by
  by_cases h1 : b < 0x80
  · rw [List.cons_append, decode_ascii b _ h1, decode_ascii b _ h1]
  by_cases h2 : b < 0xC2 ∨ 0xF5 ≤ b
  · rw [List.cons_append, decode_bad _ (firstInfo_bad (by omega)), decode_bad _ (firstInfo_bad (by omega))]
  by_cases h3 : b < 0xE0
  · have hf := @firstInfo_two b (by omega) h3
    rcases xt with _ | ⟨s1, t1⟩
    · rw [decode_short [] hf (by omega) (by simp)]
      rcases y with _ | ⟨y1, y2⟩
      · exact decode_short [] hf (by omega) (by simp)
      · simp only [List.cons_append, List.nil_append] at hw ⊢
        rw [decode_sz2 hf] at hw ⊢
        split_ifs at hw ⊢ with h
        · rfl
        · simp at hw
    · simp only [List.cons_append]
      rw [decode_sz2 hf, decode_sz2 hf]
  by_cases h4 : b < 0xF0
  · obtain ⟨lo, hi, hf, -⟩ := @firstInfo_three b (by omega) h4
    rcases xt with _ | ⟨s1, _ | ⟨s2, t2⟩⟩
    · rw [decode_short [] hf (by omega) (by simp)]
      rcases y with _ | ⟨y1, _ | ⟨y2, y3⟩⟩
      · exact decode_short [] hf (by omega) (by simp)
      · exact decode_short _ hf (by omega) (by simp)
      · simp only [List.cons_append, List.nil_append] at hw ⊢
        rw [decode_sz3 hf] at hw ⊢
        split_ifs at hw ⊢ with h
        · rfl
        · rfl
        · simp at hw
    · rw [decode_short [s1] hf (by omega) (by simp)]
      rcases y with _ | ⟨y1, y2⟩
      · exact decode_short _ hf (by omega) (by simp)
      · simp only [List.cons_append, List.nil_append] at hw ⊢
        rw [decode_sz3 hf] at hw ⊢
        split_ifs at hw ⊢ with h
        · rfl
        · rfl
        · simp at hw
    · simp only [List.cons_append]
      rw [decode_sz3 hf, decode_sz3 hf]
  · obtain ⟨lo, hi, hf, -⟩ := @firstInfo_four b (by omega) (by omega)
    rcases xt with _ | ⟨s1, _ | ⟨s2, _ | ⟨s3, t3⟩⟩⟩
    · rw [decode_short [] hf (by omega) (by simp)]
      rcases y with _ | ⟨y1, _ | ⟨y2, _ | ⟨y3, y4⟩⟩⟩
      · exact decode_short [] hf (by omega) (by simp)
      · exact decode_short _ hf (by omega) (by simp)
      · exact decode_short _ hf (by omega) (by simp)
      · simp only [List.cons_append, List.nil_append] at hw ⊢
        rw [decode_sz4 hf] at hw ⊢
        split_ifs at hw ⊢ with h
        · rfl
        · rfl
        · rfl
        · simp at hw
    · rw [decode_short [s1] hf (by omega) (by simp)]
      rcases y with _ | ⟨y1, _ | ⟨y2, y3⟩⟩
      · exact decode_short _ hf (by omega) (by simp)
      · exact decode_short _ hf (by omega) (by simp)
      · simp only [List.cons_append, List.nil_append] at hw ⊢
        rw [decode_sz4 hf] at hw ⊢
        split_ifs at hw ⊢ with h
        · rfl
        · rfl
        · rfl
        · simp at hw
    · rw [decode_short [s1, s2] hf (by omega) (by simp)]
      rcases y with _ | ⟨y1, y2⟩
      · exact decode_short _ hf (by omega) (by simp)
      · simp only [List.cons_append, List.nil_append] at hw ⊢
        rw [decode_sz4 hf] at hw ⊢
        split_ifs at hw ⊢ with h
        · rfl
        · rfl
        · rfl
        · simp at hw
    · simp only [List.cons_append]
      rw [decode_sz4 hf, decode_sz4 hf]

/-! ## Facts about chunks -/

theorem chunksFrom_fuel (n m : Nat) (s : Str) (hn : s.length ≤ n) (hm : s.length ≤ m) :
    chunksFrom n s = chunksFrom m s := by
  induction n generalizing m s with
  | zero =>
    have : s = [] := List.length_eq_zero.mp (by omega)
    subst this
    cases m <;> rfl
  | succ n ih =>
    rcases s with _ | ⟨b, t⟩
    · cases m <;> rfl
    · rcases m with _ | m
      · simp at hm
      · simp only [chunksFrom]
        have hd := (decode_spec b t).1
        congr 1
        apply ih
        · simp only [List.length_drop, List.length_cons] at hn ⊢; omega
        · simp only [List.length_drop, List.length_cons] at hm ⊢; omega

theorem chunks_nil : chunks [] = [] := rfl

theorem chunks_cons (b : Nat) (t : Str) :
    chunks (b :: t) =
      ((decodeRuneInString (b :: t)).1, (b :: t).take (decodeRuneInString (b :: t)).2) ::
        chunks ((b :: t).drop (decodeRuneInString (b :: t)).2) := by
  have hd := (decode_spec b t).1
  simp only [chunks, List.length_cons, chunksFrom]
  congr 1
  apply chunksFrom_fuel
  · simp only [List.length_drop, List.length_cons]; omega
  · exact le_refl _

theorem chunkBytes_nil : chunkBytes [] = [] := rfl

theorem chunkBytes_cons (p : Nat × Str) (g : List (Nat × Str)) :
    chunkBytes (p :: g) = p.2 ++ chunkBytes g := by
  simp [chunkBytes]

theorem chunkBytes_append (g h : List (Nat × Str)) :
    chunkBytes (g ++ h) = chunkBytes g ++ chunkBytes h := by
  simp [chunkBytes]

/-- Induction along the runes of a string. -/
theorem chunks_induction {P : Str → Prop} (nil : P [])
    (cons : ∀ b t, P ((b :: t).drop (decodeRuneInString (b :: t)).2) → P (b :: t)) :
    ∀ s, P s := by
  suffices h : ∀ n, ∀ s : Str, s.length = n → P s from fun s => h _ s rfl
  intro n
  induction n using Nat.strong_induction_on with
  | _ n ih =>
    intro s hs
    rcases s with _ | ⟨b, t⟩
    · exact nil
    · apply cons
      have hd := (decode_spec b t).1
      exact ih _ (by subst hs; simp only [List.length_drop, List.length_cons]; omega) _ rfl

/-- The bytes of the runes of `s` are `s`. -/
theorem chunkBytes_chunks (s : Str) : chunkBytes (chunks s) = s := by
  induction s using chunks_induction with
  | nil => rfl
  | cons b t ih =>
    rw [chunks_cons, chunkBytes_cons, ih]
    exact List.take_append_drop _ _

theorem chunkOK_chunks (s : Str) : ∀ p ∈ chunks s, ChunkOK p := by
  induction s using chunks_induction with
  | nil => intro p hp; simp [chunks_nil] at hp
  | cons b t ih =>
    intro p hp
    rw [chunks_cons, List.mem_cons] at hp
    rcases hp with rfl | hp
    · obtain ⟨h1, h2, h3, h4⟩ := decode_spec b t
      by_cases hb : b < 0x80
      · left
        rw [h3 hb]
        exact ⟨hb, rfl⟩
      · right
        obtain ⟨h5, h6⟩ := h4 (by omega)
        refine ⟨h5, ?_, h6⟩
        intro h
        have := congrArg List.length h
        simp only [List.length_take, List.length_cons, List.length_nil] at this
        omega
    · exact ih p hp

theorem chunkOK_ne_nil {p : Nat × Str} (h : ChunkOK p) : p.2 ≠ [] := by
  rcases h with ⟨-, h⟩ | ⟨-, h, -⟩
  · rw [h]; exact List.cons_ne_nil _ _
  · exact h

theorem encodeRune_ne_nil (r : Nat) : encodeRune r ≠ [] := by
  unfold encodeRune
  split_ifs <;> exact List.cons_ne_nil _ _

theorem chunks_encode (r : Nat) (rest : Str) (h : validRune r = true) :
    chunks (encodeRune r ++ rest) = (r, encodeRune r) :: chunks rest := by
  have hd := decode_encode r rest h
  rcases he : encodeRune r with _ | ⟨b, t⟩
  · exact absurd he (encodeRune_ne_nil r)
  · rw [he] at hd
    rw [List.cons_append, chunks_cons, ← List.cons_append, hd]
    simp

theorem chunks_utf8 (rs : List Nat) (rest : Str) (h : ∀ r ∈ rs, validRune r = true) :
    chunks (utf8 rs ++ rest) = rs.map (fun r => (r, encodeRune r)) ++ chunks rest := by
  induction rs with
  | nil => rfl
  | cons r rs ih =>
    simp only [utf8, List.append_assoc, List.map_cons, List.cons_append]
    rw [chunks_encode r _ (h r (List.mem_cons_self _ _)),
      ih (fun x hx => h x (List.mem_cons_of_mem _ hx))]

theorem runes_utf8 (rs : List Nat) (h : ∀ r ∈ rs, validRune r = true) : runes (utf8 rs) = rs := by
  have := chunks_utf8 rs [] h
  rw [List.append_nil] at this
  simp [runes, this, chunks_nil, Function.comp_def]

/-- The runes of a string from some rune on are the runes of the rest of the string. -/
theorem chunks_suffix (g1 g2 : List (Nat × Str)) (s : Str) (h : chunks s = g1 ++ g2) :
    chunks (chunkBytes g2) = g2 := by
  induction g1 generalizing s with
  | nil => rw [List.nil_append] at h; rw [← h, chunkBytes_chunks]
  | cons p g1 ih =>
    rcases s with _ | ⟨b, t⟩
    · simp [chunks_nil] at h
    · rw [chunks_cons, List.cons_append, List.cons.injEq] at h
      exact ih _ h.2

/-- The runes of a string up to some rune are the runes of that part of the string. -/
theorem chunks_prefix (g1 g2 : List (Nat × Str)) (s : Str) (h : chunks s = g1 ++ g2) :
    chunks (chunkBytes g1) = g1 := by
  induction g1 generalizing s with
  | nil => rfl
  | cons p g1 ih =>
    rcases s with _ | ⟨b, t⟩
    · simp [chunks_nil] at h
    · have hs := chunkBytes_chunks (b :: t)
      rw [chunks_cons, List.cons_append, List.cons.injEq] at h
      obtain ⟨hp, hrest⟩ := h
      have ih' := ih _ hrest
      obtain ⟨w1, w2, -, -⟩ := decode_spec b t
      have hrest' := chunkBytes_chunks ((b :: t).drop (decodeRuneInString (b :: t)).2)
      rw [hrest, chunkBytes_append] at hrest'
      -- the word is `c ++ z ++ y`
      have hsplit : b :: t = p.2 ++ (chunkBytes g1 ++ chunkBytes g2) := by
        rw [hrest', ← hp]; exact (List.take_append_drop _ _).symm
      have hlen : p.2.length = (decodeRuneInString (b :: t)).2 := by
        rw [← hp]; simp only [List.length_take, List.length_cons]; omega
      rcases hc : p.2 with _ | ⟨b', xt⟩
      · rw [hc] at hlen; simp only [List.length_nil] at hlen; omega
      · rw [hc] at hsplit hlen
        simp only [List.cons_append, List.cons.injEq] at hsplit
        obtain ⟨rfl, ht⟩ := hsplit
        have hdec : decodeRuneInString (b :: (xt ++ chunkBytes g1)) = decodeRuneInString (b :: t) := by
          have := decode_append b (xt ++ chunkBytes g1) (chunkBytes g2)
            (by
              rw [List.cons_append, List.append_assoc, ← ht]
              simp only [List.length_append, List.length_cons] at hlen ⊢
              omega)
          rw [← this, List.cons_append, List.append_assoc, ← ht]
        rw [chunkBytes_cons, hc, List.cons_append, chunks_cons, hdec]
        have e1 : (b :: (xt ++ chunkBytes g1)).take (decodeRuneInString (b :: t)).2 = b :: xt := by
          rw [← hlen, ← List.cons_append]
          exact List.take_left' rfl
        have e2 : (b :: (xt ++ chunkBytes g1)).drop (decodeRuneInString (b :: t)).2 = chunkBytes g1 := by
          rw [← hlen, ← List.cons_append]
          exact List.drop_left' rfl
        rw [e1, e2, ih']
        congr 1
        rw [← hc, ← hp]

/-- A run of consecutive runes of a string, taken as a string of its own, has
the same runes. -/
theorem chunks_infix (g1 x g2 : List (Nat × Str)) (s : Str) (h : chunks s = g1 ++ x ++ g2) :
    chunks (chunkBytes x) = x := by
  rw [List.append_assoc] at h
  exact chunks_prefix x g2 _ (chunks_suffix g1 (x ++ g2) s h)

/-! ## Slices -/

theorem slice_mid (pre cur rest : Str) (lo hi : Nat) (hlo : lo = pre.length)
    (hhi : hi = pre.length + cur.length) :
    slice? (pre ++ cur ++ rest) (lo : Int) (hi : Int) = some cur := by
  subst hlo hhi
  unfold slice?
  rw [if_pos]
  · simp only [Int.toNat_ofNat, List.append_assoc, List.drop_left, Nat.add_sub_cancel_left,
      List.take_left]
  · simp only [List.length_append, Nat.cast_add]
    omega

theorem slice_all (s : Str) (lo : Nat) (h : lo ≤ s.length) :
    slice? s (lo : Int) (s.length : Int) = some (s.drop lo) := by
  unfold slice?
  rw [if_pos (by omega)]
  simp only [Int.toNat_ofNat]
  rw [List.take_of_length_le]
  simp only [List.length_drop]; omega

/-! ## split without indices -/

theorem splitLoop_eq_runsFrom (s : Str) (g : List (Nat × Str)) :
    ∀ (pre cur : Str) (words : List Str) (prev : Bool),
      s = pre ++ cur ++ chunkBytes g →
      (match splitLoop s (rangeIdx (pre.length + cur.length) g) words prev pre.length with
        | none => none
        | some (ws, mark) => splitEnd s ws mark) = some (words ++ runsFrom cur prev g) := by
  induction g with
  | nil =>
    intro pre cur words prev hs
    simp only [rangeIdx, splitLoop, runsFrom, splitEnd]
    rw [chunkBytes_nil, List.append_nil] at hs
    by_cases hc : cur = []
    · subst hc
      rw [List.append_nil] at hs
      subst hs
      simp
    · have hlt : pre.length < s.length := by
        rw [hs, List.length_append]
        have := List.length_pos.mpr hc
        omega
      rw [if_pos hlt, slice_all s _ (by omega), if_neg hc, hs, List.drop_left]
  | cons p g ih =>
    intro pre cur words prev hs
    obtain ⟨r, c⟩ := p
    simp only [rangeIdx, splitLoop, runsFrom]
    rw [chunkBytes_cons] at hs
    by_cases hc : cur = []
    · subst hc
      have e1 : ¬ ((isSpace r != prev) && decide (pre.length + ([] : Str).length > pre.length)) = true := by
        simp
      have e2 : ¬ ((isSpace r != prev) && !([] : Str).isEmpty) = true := by simp
      rw [if_neg e1, if_neg e2]
      exact ih pre ([] ++ c) words (isSpace r) (by rw [hs]; simp)
    · have hpos := List.length_pos.mpr hc
      by_cases hch : (isSpace r != prev) = true
      · have e1 : ((isSpace r != prev) && decide (pre.length + cur.length > pre.length)) = true := by
          rw [hch]; simp; omega
        have e2 : ((isSpace r != prev) && !cur.isEmpty) = true := by
          rw [hch]; simpa using hc
        rw [if_pos e1, if_pos e2]
        have hsl : slice? s (pre.length : Int) ((pre.length + cur.length : Nat) : Int) = some cur := by
          have hs' : s = pre ++ cur ++ (c ++ chunkBytes g) := hs
          rw [hs']
          exact slice_mid pre cur _ _ _ rfl rfl
        rw [hsl]
        have := ih (pre ++ cur) c (words ++ [cur]) (isSpace r) (by rw [hs]; simp)
        simp only [List.length_append, List.append_assoc, List.singleton_append] at this
        exact this
      · have e1 : ¬ ((isSpace r != prev) && decide (pre.length + cur.length > pre.length)) = true := by
          simp [hch]
        have e2 : ¬ ((isSpace r != prev) && !cur.isEmpty) = true := by simp [hch]
        rw [if_neg e1, if_neg e2]
        have := ih pre (cur ++ c) words (isSpace r) (by rw [hs]; simp)
        simp only [List.length_append, ← Nat.add_assoc] at this
        exact this

/-- The code of `split`, on indices and slices, returns the runs computed
without indices; no slice is out of range. -/
theorem split_eq_runsFrom (s : Str) : split s = some (runsFrom [] false (chunks s)) := by
  have := splitLoop_eq_runsFrom s (chunks s) [] [] [] false (by simp [chunkBytes_chunks])
  simpa [split, rangeString] using this

/-! ## Maximal runs -/

theorem groupRuns_cons_ne_nil {α : Type} (cls : α → Bool) (a : α) (l : List α) :
    groupRuns cls (a :: l) ≠ [] := by
  simp only [groupRuns]
  split
  · exact List.cons_ne_nil _ _
  · split <;> exact List.cons_ne_nil _ _

/-- The first element of the first run is the first element of the list. -/
theorem groupRuns_head {α : Type} (cls : α → Bool) (l : List α) :
    (groupRuns cls l).head?.bind List.head? = l.head? := by
  rcases l with _ | ⟨a, l⟩
  · rfl
  · simp only [groupRuns]
    split
    · rfl
    · split <;> rfl

theorem flatten_groupRuns {α : Type} (cls : α → Bool) (l : List α) :
    (groupRuns cls l).flatten = l := by
  induction l with
  | nil => rfl
  | cons a l ih =>
    simp only [groupRuns]
    split
    · next h => rw [h] at ih; simp at ih; simp [← ih]
    · next g gs h =>
      rw [h] at ih
      split <;> simp [← ih]

/-- A run is non-empty and all its elements have the class of the first. -/
theorem groupRuns_homogeneous {α : Type} (cls : α → Bool) (l : List α) :
    ∀ g ∈ groupRuns cls l, ∃ a t, g = a :: t ∧ ∀ b ∈ g, cls b = cls a := by
  induction l with
  | nil => intro g hg; simp [groupRuns] at hg
  | cons a l ih =>
    intro g hg
    simp only [groupRuns] at hg
    split at hg
    · simp only [List.mem_singleton] at hg
      subst hg
      exact ⟨a, [], rfl, by simp⟩
    · next g0 gs h =>
      rw [h] at ih
      split at hg
      · next hc =>
        rcases List.mem_cons.mp hg with rfl | hg
        · obtain ⟨a0, t0, e0, h0⟩ := ih g0 (List.mem_cons_self _ _)
          subst e0
          simp only [List.head?_cons, Option.map_some', Option.some.injEq] at hc
          refine ⟨a, a0 :: t0, rfl, ?_⟩
          intro b hb
          rcases List.mem_cons.mp hb with rfl | hb
          · rfl
          · rw [h0 b hb, hc]
        · exact ih g (List.mem_cons_of_mem _ hg)
      · rcases List.mem_cons.mp hg with rfl | hg
        · exact ⟨a, [], rfl, by simp⟩
        · exact ih g hg

/-- Adjacent runs begin with elements of different class. -/
theorem groupRuns_chain {α : Type} (cls : α → Bool) (l : List α) :
    List.Chain' (fun x y : List α => x.head?.map cls ≠ y.head?.map cls) (groupRuns cls l) := by
  induction l with
  | nil => exact List.chain'_nil
  | cons a l ih =>
    simp only [groupRuns]
    split
    · exact List.chain'_singleton _
    · next g0 gs h =>
      rw [h] at ih
      have hh := groupRuns_homogeneous cls l g0 (by rw [h]; exact List.mem_cons_self _ _)
      obtain ⟨a0, t0, e0, h0⟩ := hh
      subst e0
      split
      · next hc =>
        simp only [List.head?_cons, Option.map_some', Option.some.injEq] at hc
        rcases gs with _ | ⟨g1, gs⟩
        · exact List.chain'_singleton _
        · rw [List.chain'_cons] at ih ⊢
          refine ⟨?_, ih.2⟩
          have := ih.1
          simp only [List.head?_cons, Option.map_some'] at this ⊢
          rw [← hc]; exact this
      · next hc =>
        rw [List.chain'_cons]
        refine ⟨?_, ih⟩
        simp only [List.head?_cons, Option.map_some'] at hc ⊢
        exact fun e => hc e.symm

/-- A non-empty stretch of one class, followed by nothing or by an element of
another class, is the first run. -/
theorem groupRuns_append {α : Type} (cls : α → Bool) (a : α) (gc rest : List α)
    (hgc : ∀ b ∈ gc, cls b = cls a) (hrest : rest.head?.map cls ≠ some (cls a)) :
    groupRuns cls (a :: gc ++ rest) = (a :: gc) :: groupRuns cls rest := by
  induction gc generalizing a with
  | nil =>
    have hh := groupRuns_head cls rest
    simp only [List.cons_append, List.nil_append]
    rw [groupRuns]
    rcases hG : groupRuns cls rest with _ | ⟨g0, gs⟩
    · rfl
    · rw [hG] at hh
      have hh' : g0.head? = rest.head? := hh
      simp only []
      rw [if_neg]
      rw [hh']; exact hrest
  | cons a1 gc ih =>
    have e1 : cls a1 = cls a := hgc a1 (List.mem_cons_self _ _)
    have := ih a1 (fun b hb => by rw [hgc b (List.mem_cons_of_mem _ hb), e1]) (by rw [e1]; exact hrest)
    rw [List.cons_append, groupRuns, this]
    simp only [List.head?_cons, Option.map_some', e1, if_true]

/-- The loop of `split` returns the maximal runs of runes of one category. -/
theorem runsFrom_eq_groupRuns (g : List (Nat × Str)) (hg : ∀ p ∈ g, p.2 ≠ []) :
    ∀ (a : Nat × Str) (gc : List (Nat × Str)), (∀ b ∈ gc, isSpace b.1 = isSpace a.1) → a.2 ≠ [] →
      runsFrom (chunkBytes (a :: gc)) (isSpace a.1) g =
        (groupRuns (fun p : Nat × Str => isSpace p.1) (a :: gc ++ g)).map chunkBytes := by
  induction g with
  | nil =>
    intro a gc hgc ha
    have hne : chunkBytes (a :: gc) ≠ [] := by
      rw [chunkBytes_cons]; simp [ha]
    rw [groupRuns_append _ a gc [] hgc (by simp)]
    simp [runsFrom, hne, groupRuns]
  | cons p g ih =>
    intro a gc hgc ha
    obtain ⟨r, c⟩ := p
    have hne : chunkBytes (a :: gc) ≠ [] := by
      rw [chunkBytes_cons]; simp [ha]
    have hc : c ≠ [] := hg (r, c) (List.mem_cons_self _ _)
    have hg' : ∀ p ∈ g, p.2 ≠ [] := fun p hp => hg p (List.mem_cons_of_mem _ hp)
    simp only [runsFrom]
    by_cases hch : isSpace r = isSpace a.1
    · have e2 : ¬ ((isSpace r != isSpace a.1) && !(chunkBytes (a :: gc)).isEmpty) = true := by
        simp [hch]
      rw [if_neg e2]
      have := ih hg' a (gc ++ [(r, c)]) (by
        intro b hb
        rcases List.mem_append.mp hb with hb | hb
        · exact hgc b hb
        · simp only [List.mem_singleton] at hb; subst hb; exact hch) ha
      rw [hch]
      simp only [List.cons_append, List.append_assoc, List.singleton_append, List.nil_append] at this ⊢
      rw [← this]
      congr 1
      simp [chunkBytes]
    · have e2 : ((isSpace r != isSpace a.1) && !(chunkBytes (a :: gc)).isEmpty) = true := by
        simp [hch, hne]
      rw [if_pos e2]
      have := ih hg' (r, c) [] (by simp) hc
      have hcb : chunkBytes [(r, c)] = c := by simp [chunkBytes]
      rw [hcb] at this
      rw [this, groupRuns_append _ a gc ((r, c) :: g) hgc (by simpa using hch)]
      simp

/-- The tokens of `split` are the maximal runs of runes of one category. -/
theorem split_eq_groupRuns (s : Str) :
    split s = some ((groupRuns (fun p : Nat × Str => isSpace p.1) (chunks s)).map chunkBytes) := by
  rw [split_eq_runsFrom]
  have hok := chunkOK_chunks s
  rcases hc : chunks s with _ | ⟨a, g⟩
  · rfl
  · rw [hc] at hok
    have ha : a.2 ≠ [] := chunkOK_ne_nil (hok a (List.mem_cons_self _ _))
    have hg : ∀ p ∈ g, p.2 ≠ [] := fun p hp => chunkOK_ne_nil (hok p (List.mem_cons_of_mem _ hp))
    have := runsFrom_eq_groupRuns g hg a [] (by simp) ha
    simp only [List.cons_append, List.nil_append] at this
    rw [← this]
    obtain ⟨r, c⟩ := a
    have e2 : ¬ ((isSpace r != false) && !([] : Str).isEmpty) = true := by simp
    simp only [runsFrom]
    rw [if_neg e2]
    simp [chunkBytes]

/-! ## The tokens of split -/

theorem flatten_map_chunkBytes (L : List (List (Nat × Str))) :
    (L.map chunkBytes).flatten = chunkBytes L.flatten := by
  induction L with
  | nil => rfl
  | cons x L ih => simp [chunkBytes_append, ih]

/-- A run of runes of `s` that `split` takes as a token has, as a string of
its own, the same runes. -/
theorem chunks_of_run (s : Str) (x : List (Nat × Str))
    (hx : x ∈ groupRuns (fun p : Nat × Str => isSpace p.1) (chunks s)) :
    chunks (chunkBytes x) = x := by
  obtain ⟨l1, l2, hl⟩ := List.append_of_mem hx
  have hf := flatten_groupRuns (fun p : Nat × Str => isSpace p.1) (chunks s)
  rw [hl] at hf
  simp only [List.flatten_append, List.flatten_cons] at hf
  exact chunks_infix l1.flatten x l2.flatten s (by rw [← hf]; simp)

theorem run_ne_nil (s : Str) (x : List (Nat × Str))
    (hx : x ∈ groupRuns (fun p : Nat × Str => isSpace p.1) (chunks s)) :
    chunkBytes x ≠ [] := by
  obtain ⟨a, t, rfl, -⟩ := groupRuns_homogeneous _ _ x hx
  have hmem : a ∈ chunks s := by
    rw [← flatten_groupRuns (fun p : Nat × Str => isSpace p.1) (chunks s)]
    exact List.mem_flatten.mpr ⟨_, hx, List.mem_cons_self _ _⟩
  have := chunkOK_ne_nil (chunkOK_chunks s a hmem)
  rw [chunkBytes_cons]
  simp [this]

/-- A token of `split` is all spaces or free of spaces, as its first rune is. -/
theorem run_class (s : Str) (x : List (Nat × Str))
    (hx : x ∈ groupRuns (fun p : Nat × Str => isSpace p.1) (chunks s)) :
    (x.head?.map (fun p : Nat × Str => isSpace p.1) = some true ∧ allSpace (chunkBytes x) = true) ∨
    (x.head?.map (fun p : Nat × Str => isSpace p.1) = some false ∧ noSpace (chunkBytes x) = true) := by
  have hc := chunks_of_run s x hx
  obtain ⟨a, t, rfl, hcl⟩ := groupRuns_homogeneous _ _ x hx
  simp only [allSpace, noSpace, runes, hc, List.head?_cons, Option.map_some', Option.some.injEq,
    List.all_eq_true, List.mem_map, forall_exists_index, and_imp, forall_apply_eq_imp_iff₂,
    Bool.not_eq_true']
  cases h : isSpace a.1
  · right
    exact ⟨rfl, fun b hb => by have := hcl b hb; simp only [] at this; rw [this, h]⟩
  · left
    exact ⟨rfl, fun b hb => by have := hcl b hb; simp only [] at this; rw [this, h]⟩

/-- A non-empty string without whitespace is the only token of itself. -/
theorem split_noSpace (s : Str) (hs : s ≠ []) (hno : noSpace s = true) : split s = some [s] := by
  rw [split_eq_groupRuns]
  rcases hc : chunks s with _ | ⟨a, g⟩
  · have := chunkBytes_chunks s
    rw [hc] at this
    exact absurd this.symm hs
  · have hall : ∀ b ∈ a :: g, isSpace b.1 = false := by
      intro b hb
      simp only [noSpace, runes, hc, List.all_eq_true, List.mem_map, forall_exists_index,
        and_imp, Bool.not_eq_true'] at hno
      exact hno b.1 b hb rfl
    have := groupRuns_append (fun p : Nat × Str => isSpace p.1) a g []
      (fun b hb => by
        simp only []
        rw [hall b (List.mem_cons_of_mem _ hb), hall a (List.mem_cons_self _ _)])
      (by simp)
    rw [List.append_nil] at this
    rw [this]
    simp only [groupRuns, List.map_cons, List.map_nil]
    rw [← hc, chunkBytes_chunks]

/-- What `split` returns: it returns for every string; its tokens, in order,
concatenate to the string; each is non-empty and all spaces or free of spaces;
adjacent tokens are of opposite category. -/
theorem split_spec (s : Str) :
    ∃ ws, split s = some ws ∧ ws.flatten = s ∧
      (∀ t ∈ ws, t ≠ [] ∧ (allSpace t = true ∨ noSpace t = true)) ∧
      List.Chain' (fun a b : Str => (allSpace a = true ∧ noSpace b = true) ∨
        (noSpace a = true ∧ allSpace b = true)) ws := by
  refine ⟨_, split_eq_groupRuns s, ?_, ?_, ?_⟩
  · rw [flatten_map_chunkBytes, flatten_groupRuns, chunkBytes_chunks]
  · intro t ht
    obtain ⟨x, hx, rfl⟩ := List.mem_map.mp ht
    refine ⟨run_ne_nil s x hx, ?_⟩
    rcases run_class s x hx with h | h
    · exact Or.inl h.2
    · exact Or.inr h.2
  · rw [List.chain'_map]
    have hch := List.Chain'.iff_mem.mp (groupRuns_chain (fun p : Nat × Str => isSpace p.1) (chunks s))
    refine hch.imp ?_
    rintro x y ⟨hx, hy, hne⟩
    rcases run_class s x hx with ⟨h1, h2⟩ | ⟨h1, h2⟩ <;>
      rcases run_class s y hy with ⟨h3, h4⟩ | ⟨h3, h4⟩
    · exact absurd (h1.trans h3.symm) hne
    · exact Or.inl ⟨h2, h4⟩
    · exact Or.inr ⟨h2, h4⟩
    · exact absurd (h1.trans h3.symm) hne

/-! ## Claims on split -/

/-- C7: tokenization is lossless: for every string `s`, `split s` returns and
the concatenation of its tokens, in order, is `s`. -/
theorem split_concat (s : Str) : ∃ ws, split s = some ws ∧ ws.flatten = s := by
  obtain ⟨ws, h1, h2, -, -⟩ := split_spec s
  exact ⟨ws, h1, h2⟩

/-- C8: for every string `s`, every token of `split s` is non-empty and is
either entirely whitespace (every character satisfies `unicode.IsSpace`) or
entirely non-whitespace (no character does); `s` may begin with whitespace. -/
theorem split_tokens_uniform (s : Str) :
    ∃ ws, split s = some ws ∧
      ∀ t ∈ ws, t ≠ [] ∧ (allSpace t = true ∨ noSpace t = true) := by
  obtain ⟨ws, h1, -, h3, -⟩ := split_spec s
  exact ⟨ws, h1, h3⟩

/-- C9: for every string `s`, any two adjacent tokens of `split s` are of
opposite category, one all whitespace and the other free of whitespace; the
empty string has no token, and a non-empty string without whitespace is its
only token. -/
theorem split_alternates (s : Str) :
    (∃ ws, split s = some ws ∧
      List.Chain' (fun a b : Str => (allSpace a = true ∧ noSpace b = true) ∨
        (noSpace a = true ∧ allSpace b = true)) ws) ∧
    split [] = some [] ∧
    (s ≠ [] → noSpace s = true → split s = some [s]) := by
  obtain ⟨ws, h1, -, -, h4⟩ := split_spec s
  exact ⟨⟨ws, h1, h4⟩, rfl, split_noSpace s⟩

/-- C9 at the string `ab`, which has no whitespace. -/
theorem split_alternates_witness : split (bytes "ab") = some [bytes "ab"] :=
  (split_alternates (bytes "ab")).2.2 (by decide) (by decide)

/-! ## strings.IndexAny and strings.LastIndex -/

theorem indexAny_cons (b : Nat) (t chars : Str) :
    indexAny (b :: t) chars =
      if b ∈ chars then 0 else if indexAny t chars = -1 then -1 else indexAny t chars + 1 := by
  rw [indexAny]
  by_cases h : b ∈ chars
  · rw [if_pos h, if_pos (by simpa using h)]
  · rw [if_neg h, if_neg (by simpa using h)]

theorem indexAny_nonneg_or (s chars : Str) : indexAny s chars = -1 ∨ 0 ≤ indexAny s chars := by
  induction s with
  | nil => left; rfl
  | cons b t ih =>
    rw [indexAny_cons]
    split_ifs with h1 h2
    · right; exact le_refl _
    · left; rfl
    · right; omega

theorem indexAny_eq_neg_one (s chars : Str) :
    indexAny s chars = -1 ↔ ∀ b ∈ s, b ∉ chars := by
  induction s with
  | nil => simp [indexAny]
  | cons b t ih =>
    rw [indexAny_cons]
    simp only [List.mem_cons, forall_eq_or_imp]
    have := indexAny_nonneg_or t chars
    split_ifs with h1 h2
    · constructor
      · intro h; exact absurd h (by decide)
      · intro h; exact absurd h1 h.1
    · simp only [true_iff]
      exact ⟨h1, ih.mp h2⟩
    · constructor
      · intro h; omega
      · intro h; exact absurd (ih.mpr h.2) h2

/-- The index returned by `strings.IndexAny` is that of the first byte among `chars`. -/
theorem indexAny_append (a : Str) (b : Nat) (rest chars : Str)
    (ha : ∀ x ∈ a, x ∉ chars) (hb : b ∈ chars) :
    indexAny (a ++ b :: rest) chars = (a.length : Int) := by
  induction a with
  | nil => rw [List.nil_append, indexAny_cons, if_pos hb]; rfl
  | cons x a ih =>
    have hx : x ∉ chars := ha x (List.mem_cons_self _ _)
    have := ih (fun y hy => ha y (List.mem_cons_of_mem _ hy))
    rw [List.cons_append, indexAny_cons, if_neg hx, this, if_neg (by omega), List.length_cons]
    push_cast
    rfl

/-- A string on which `strings.IndexAny` finds a byte splits at that byte. -/
theorem indexAny_split (s chars : Str) (h : indexAny s chars ≠ -1) :
    ∃ a b rest, s = a ++ b :: rest ∧ (∀ x ∈ a, x ∉ chars) ∧ b ∈ chars := by
  induction s with
  | nil => exact absurd rfl h
  | cons x t ih =>
    by_cases hx : x ∈ chars
    · exact ⟨[], x, t, rfl, by simp, hx⟩
    · have ht : indexAny t chars ≠ -1 := by
        intro e
        apply h
        rw [indexAny_cons, if_neg hx, if_pos e]
      obtain ⟨a, b, rest, e, ha, hb⟩ := ih ht
      refine ⟨x :: a, b, rest, by rw [e]; rfl, ?_, hb⟩
      intro y hy
      rcases List.mem_cons.mp hy with rfl | hy
      · exact hx
      · exact ha y hy

theorem isPrefixOf_singleton (m x : Nat) (t : Str) :
    List.isPrefixOf [m] (x :: t) = decide (m = x) := by
  simp only [List.isPrefixOf, Bool.and_true]
  by_cases h : m = x <;> simp [h]

theorem lastIndexFrom_cons (m x : Nat) (t : Str) (i acc : Int) :
    lastIndexFrom [m] (x :: t) i acc = lastIndexFrom [m] t (i + 1) (if m = x then i else acc) := by
  rw [lastIndexFrom, isPrefixOf_singleton]
  simp only [decide_eq_true_eq]

theorem lastIndexFrom_not_mem (m : Nat) (t : Str) (i acc : Int) (h : m ∉ t) :
    lastIndexFrom [m] t i acc = acc := by
  induction t generalizing i acc with
  | nil => simp [lastIndexFrom]
  | cons x t ih =>
    have hx : ¬ m = x := fun e => h (e ▸ List.mem_cons_self _ _)
    rw [lastIndexFrom_cons, if_neg hx]
    exact ih _ _ (fun hm => h (List.mem_cons_of_mem _ hm))

theorem lastIndexFrom_append (m : Nat) (a t : Str) (i acc : Int) (h : m ∉ t) :
    lastIndexFrom [m] (a ++ m :: t) i acc = i + (a.length : Int) := by
  induction a generalizing i acc with
  | nil =>
    rw [List.nil_append, lastIndexFrom_cons, if_pos rfl, lastIndexFrom_not_mem m t _ _ h]
    simp
  | cons x a ih =>
    rw [List.cons_append, lastIndexFrom_cons, ih, List.length_cons]
    push_cast
    omega

/-- The index returned by `strings.LastIndex` for a one-byte string is that of
the last byte equal to it. -/
theorem lastIndex_append (m : Nat) (a t : Str) (h : m ∉ t) :
    lastIndex (a ++ m :: t) [m] = (a.length : Int) := by
  unfold lastIndex
  rw [lastIndexFrom_append m a t _ _ h]
  simp

/-- A list that contains `m` splits at the last `m`. -/
theorem split_at_last (m : Nat) (l : Str) (h : m ∈ l) :
    ∃ a t, l = a ++ m :: t ∧ m ∉ t := by
  induction l with
  | nil => simp at h
  | cons x l ih =>
    by_cases hl : m ∈ l
    · obtain ⟨a, t, e, ht⟩ := ih hl
      exact ⟨x :: a, t, by rw [e]; rfl, ht⟩
    · rcases List.mem_cons.mp h with rfl | h
      · exact ⟨[], l, rfl, hl⟩
      · exact absurd h hl

/-! ## More slices -/

theorem slice_prefix (a rest : Str) (hi : Int) (h : hi = (a.length : Int)) :
    slice? (a ++ rest) 0 hi = some a := by
  have := slice_mid [] a rest 0 a.length rfl (by simp)
  subst h
  simpa using this

theorem slice_suffix (a rest : Str) (lo hi : Int) (hlo : lo = (a.length : Int))
    (hhi : hi = ((a ++ rest).length : Int)) :
    slice? (a ++ rest) lo hi = some rest := by
  subst hlo hhi
  rw [slice_all _ _ (by simp)]
  simp

theorem index_zero (b : Nat) (t : Str) : index? (b :: t) 0 = some b := by
  simp [index?]

/-! ## The punctuation test -/

theorem rangeIdx_runes (i : Nat) (g : List (Nat × Str)) :
    (rangeIdx i g).map Prod.snd = g.map Prod.fst := by
  induction g generalizing i with
  | nil => rfl
  | cons p g ih =>
    obtain ⟨r, c⟩ := p
    simp only [rangeIdx, List.map_cons, ih]

theorem runes_punctuation : runes punctuation = punctRunes := by decide

theorem allPunct_iff (t : Str) : allPunct t = true ↔ ∀ r ∈ runes t, r ∈ punctRunes := by
  have h : ∀ l : List (Nat × Nat), (l.all fun ir => containsRune punctuation ir.2) = true ↔
      ∀ r ∈ l.map Prod.snd, r ∈ punctRunes := by
    intro l
    simp only [containsRune, runes_punctuation, List.all_eq_true,
      List.mem_map, forall_exists_index, and_imp]
    exact ⟨fun h r p hp e => e ▸ (by simpa using h p hp), fun h p hp => by simpa using h p.2 p hp rfl⟩
  unfold allPunct
  rw [h, rangeString, rangeIdx_runes]
  rfl

theorem punctRunes_valid : ∀ r ∈ punctRunes, validRune r = true := by decide

theorem punctRunes_noSpace : ∀ r ∈ punctRunes, isSpace r = false := by decide

theorem punctRunes_bytes : ∀ r ∈ punctRunes, ∀ x ∈ encodeRune r, x ∉ marker := by decide

theorem allPunct_utf8 (L : List Nat) (h : ∀ r ∈ L, r ∈ punctRunes) : allPunct (utf8 L) = true := by
  rw [allPunct_iff, runes_utf8 L (fun r hr => punctRunes_valid r (h r hr))]
  exact h

theorem utf8_append (a b : List Nat) : utf8 (a ++ b) = utf8 a ++ utf8 b := by
  induction a with
  | nil => rfl
  | cons r a ih => simp [utf8, ih]

theorem mem_utf8 (L : List Nat) (x : Nat) (h : x ∈ utf8 L) : ∃ r ∈ L, x ∈ encodeRune r := by
  induction L with
  | nil => simp [utf8] at h
  | cons r L ih =>
    simp only [utf8, List.mem_append] at h
    rcases h with h | h
    · exact ⟨r, List.mem_cons_self _ _, h⟩
    · obtain ⟨r', hr', hx⟩ := ih h
      exact ⟨r', List.mem_cons_of_mem _ hr', hx⟩

theorem utf8_punct_no_marker (L : List Nat) (h : ∀ r ∈ L, r ∈ punctRunes) :
    ∀ x ∈ utf8 L, x ∉ marker := by
  intro x hx
  obtain ⟨r, hr, hxr⟩ := mem_utf8 L x hx
  exact punctRunes_bytes r (h r hr) x hxr

/-! ## One word of font -/

theorem tagsFor_marker (m : Nat) (h : m ∈ marker) : ∃ o c, tagsFor m = some (o, c) := by
  simp only [marker, List.mem_cons, List.mem_singleton, List.not_mem_nil, or_false] at h
  rcases h with rfl | rfl | rfl <;> exact ⟨_, _, rfl⟩

theorem marker_of_tagsFor (m : Nat) (o c : Str) (h : tagsFor m = some (o, c)) : m ∈ marker := by
  unfold tagsFor at h
  simp only [marker, List.mem_cons, List.mem_singleton, List.not_mem_nil, or_false]
  split_ifs at h with h1 h2 h3
  · exact Or.inl h1
  · exact Or.inr (Or.inl h2)
  · exact Or.inr (Or.inr h3)

/-- The iteration of the loop `Word` for a word of at least two bytes whose
first marker byte is `m`: what is left to decide is the punctuation before the
marker, the last occurrence of the marker, the punctuation after it, and the
body. -/
theorem fontWord_eq (L : Str) (m : Nat) (rest otag ctag : Str)
    (hL : ∀ x ∈ L, x ∉ marker) (ht : tagsFor m = some (otag, ctag))
    (hlen : 2 ≤ (L ++ m :: rest).length) :
    fontWord (L ++ m :: rest) =
      if (!allPunct L) = true then .leadNotPunct
      else if lastIndex (m :: rest) [m] = 0 then .loneMarker
      else
        match slice? (m :: rest) 0 (lastIndex (m :: rest) [m] + 1),
          slice? (m :: rest) (lastIndex (m :: rest) [m] + 1) ((m :: rest).length : Int) with
        | some head, some tail =>
          if (!allPunct tail) = true then .tailNotPunct
          else
            match bodyLoop head m head.length 1 (L ++ otag) with
            | none => .fault
            | some b => .styled (b ++ ctag ++ tail)
        | _, _ => .fault := by
  have hm := marker_of_tagsFor m otag ctag ht
  have h1 : indexAny (L ++ m :: rest) marker = (L.length : Int) := indexAny_append L m rest marker hL hm
  have h2 : slice? (L ++ m :: rest) 0 (L.length : Int) = some L := slice_prefix L _ _ rfl
  have h3 : slice? (L ++ m :: rest) (L.length : Int) ((L ++ m :: rest).length : Int) = some (m :: rest) :=
    slice_suffix L _ _ _ rfl rfl
  have h4 : slice? (m :: rest) 0 1 = some [m] := slice_prefix [m] rest 1 rfl
  unfold fontWord
  simp only [h1]
  rw [if_neg (by omega), if_neg (by omega), h2]
  simp only [h3, index_zero, ht, h4]

theorem fontWord_lone (L : Str) (m : Nat) (rest otag ctag : Str)
    (hL : ∀ x ∈ L, x ∉ marker) (ht : tagsFor m = some (otag, ctag))
    (hlen : 2 ≤ (L ++ m :: rest).length) (hP : allPunct L = true) (hrest : m ∉ rest) :
    fontWord (L ++ m :: rest) = .loneMarker := by
  rw [fontWord_eq L m rest otag ctag hL ht hlen, if_neg (by simp [hP])]
  have : lastIndex (m :: rest) [m] = 0 := lastIndex_append m [] rest hrest
  rw [if_pos this]

theorem fontWord_lead (L : Str) (m : Nat) (rest otag ctag : Str)
    (hL : ∀ x ∈ L, x ∉ marker) (ht : tagsFor m = some (otag, ctag))
    (hlen : 2 ≤ (L ++ m :: rest).length) (hP : allPunct L = false) :
    fontWord (L ++ m :: rest) = .leadNotPunct := by
  rw [fontWord_eq L m rest otag ctag hL ht hlen, if_pos (by simp [hP])]

/-- The iteration of the loop `Word` for a word that has the marker `m` twice:
`B` is the body, between the first marker of the word and the last occurrence
of `m`. -/
theorem fontWord_span (L : Str) (m : Nat) (B T otag ctag : Str)
    (hL : ∀ x ∈ L, x ∉ marker) (ht : tagsFor m = some (otag, ctag)) (hT : m ∉ T) :
    fontWord (L ++ m :: (B ++ m :: T)) =
      if (!allPunct L) = true then .leadNotPunct
      else if (!allPunct T) = true then .tailNotPunct
      else
        match bodyLoop (m :: B ++ [m]) m (B.length + 2) 1 (L ++ otag) with
        | none => .fault
        | some b => .styled (b ++ ctag ++ T) := by
  rw [fontWord_eq L m _ otag ctag hL ht (by simp; omega)]
  have hl : lastIndex (m :: (B ++ m :: T)) [m] = ((B.length + 1 : Nat) : Int) :=
    lastIndex_append m (m :: B) T hT
  have hw : m :: (B ++ m :: T) = (m :: B ++ [m]) ++ T := by simp
  have h1 : slice? (m :: (B ++ m :: T)) 0 (((B.length + 1 : Nat) : Int) + 1) = some (m :: B ++ [m]) := by
    rw [hw]
    exact slice_prefix _ _ _ (by simp)
  have h2 : slice? (m :: (B ++ m :: T)) (((B.length + 1 : Nat) : Int) + 1)
      ((m :: (B ++ m :: T)).length : Int) = some T := by
    rw [hw]
    exact slice_suffix _ _ _ _ (by simp) rfl
  have hlen : (m :: B ++ [m]).length = B.length + 2 := by simp
  have h0 : ¬ ((B.length + 1 : Nat) : Int) = 0 := by omega
  rw [hl, h1, h2]
  simp only [h0, if_false, hlen]

/-! ## The loop over the body -/

theorem bodyLoop_done (head : Str) (char fuel i : Nat) (b : Str)
    (h : (head.drop i).length < 2) :
    bodyLoop head char (fuel + 1) i b = some b := by
  rw [bodyLoop, if_neg]
  rw [List.length_drop] at h
  omega

theorem bodyLoop_ordinary (head : Str) (char fuel i : Nat) (b rest : Str)
    (hd : head.drop i = rest) (hl : 2 ≤ rest.length)
    (hr : (decodeRuneInString rest).1 ≠ char) :
    bodyLoop head char (fuel + 1) i b =
      bodyLoop head char fuel (i + (decodeRuneInString rest).2)
        (b ++ encodeRune (decodeRuneInString rest).1) := by
  rw [bodyLoop, if_pos]
  · simp only [hd]
    rw [if_pos hr]
  · rw [← hd, List.length_drop] at hl
    omega

theorem index_succ_of_drop (head : Str) (i : Nat) (x c : Nat) (rest : Str)
    (hd : head.drop i = x :: c :: rest) : index? head ((i : Int) + 1) = some c := by
  unfold index?
  rw [if_pos (by omega)]
  have : ((i : Int) + 1).toNat = i + 1 := by omega
  rw [this]
  have h2 : head.drop (i + 1) = c :: rest := by
    rw [← List.drop_drop, hd]; rfl
  have := congrArg List.head? h2
  rw [List.head?_drop] at this
  simpa using this

theorem bodyLoop_marker (head : Str) (char fuel i : Nat) (b : Str) (c : Nat) (rest : Str)
    (hc : char < 0x80) (hd : head.drop i = char :: c :: rest) :
    bodyLoop head char (fuel + 1) i b =
      if c ≠ char then bodyLoop head char fuel (i + 1) (b ++ [0x20])
      else bodyLoop head char fuel (i + 2) (b ++ [char]) := by
  rw [bodyLoop, if_pos]
  · simp only [hd, decode_ascii char _ hc, ne_eq, not_true_eq_false, if_false,
      index_succ_of_drop head i char c rest hd]
    rfl
  · have := congrArg List.length hd
    rw [List.length_drop] at this
    simp only [List.length_cons] at this
    omega

theorem encodeRune_ascii (r : Nat) (h : r < 0x80) : encodeRune r = [r] := by
  unfold encodeRune
  rw [if_pos (by omega)]

/-- The encoding of a rune other than the ASCII byte `m` does not begin with `m`. -/
theorem encodeRune_head (d m : Nat) (hm : m < 0x80) (hd : d ≠ m) :
    ∃ x xs, encodeRune d = x :: xs ∧ x ≠ m := by
  unfold encodeRune
  split_ifs
  · exact ⟨_, _, rfl, hd⟩
  · exact ⟨_, _, rfl, by omega⟩
  · exact ⟨_, _, rfl, by omega⟩
  · exact ⟨_, _, rfl, by omega⟩
  · exact ⟨_, _, rfl, by omega⟩

theorem length_encodeRune_pos (r : Nat) : 0 < (encodeRune r).length :=
  List.length_pos.mpr (encodeRune_ne_nil r)

/-- The loop over the body, on a body of valid characters followed by the
closing marker, appends the rewriting of the body to the buffer. -/
theorem bodyLoop_utf8 (m : Nat) (hm : m < 0x80) (head : Str) :
    ∀ (n : Nat) (B : List Nat), B.length ≤ n → (∀ r ∈ B, validRune r = true) →
      ∀ (i : Nat) (b : Str) (fuel : Nat), head.drop i = utf8 B ++ [m] →
        (utf8 B).length < fuel →
        bodyLoop head m fuel i b = some (b ++ utf8 (rewriteLookahead m B)) := by
  intro n
  induction n with
  | zero =>
    intro B hB _ i b fuel hd hf
    have : B = [] := List.length_eq_zero.mp (by omega)
    subst this
    obtain ⟨fuel, rfl⟩ : ∃ k, fuel = k + 1 := ⟨fuel - 1, by omega⟩
    rw [bodyLoop_done head m fuel i b (by rw [hd]; simp [utf8])]
    simp [rewriteLookahead, utf8]
  | succ n ih =>
    intro B hB hv i b fuel hd hf
    obtain ⟨fuel, rfl⟩ : ∃ k, fuel = k + 1 := ⟨fuel - 1, by omega⟩
    rcases B with _ | ⟨c, B⟩
    · rw [bodyLoop_done head m fuel i b (by rw [hd]; simp [utf8])]
      simp [rewriteLookahead, utf8]
    have hvc : validRune c = true := hv c (List.mem_cons_self _ _)
    have hvB : ∀ r ∈ B, validRune r = true := fun r hr => hv r (List.mem_cons_of_mem _ hr)
    by_cases hc : c = m
    · -- the character is the marker
      subst hc
      have hd' : head.drop i = c :: (utf8 B ++ [c]) := by
        rw [hd, utf8, encodeRune_ascii c hm]; rfl
      rcases B with _ | ⟨d, u⟩
      · -- followed by the closing marker
        have hd2 : head.drop i = c :: c :: [] := hd'
        rw [bodyLoop_marker head c fuel i b c [] hm hd2, if_neg (by simp)]
        have hf2 : 1 < fuel + 1 := by
          simpa [utf8, encodeRune_ascii c hm] using hf
        obtain ⟨fuel, rfl⟩ : ∃ k, fuel = k + 1 := ⟨fuel - 1, by omega⟩
        rw [bodyLoop_done head c fuel (i + 2) _ (by rw [← List.drop_drop, hd2]; simp)]
        simp [rewriteLookahead, utf8, encodeRune_ascii c hm]
      · by_cases hdm : d = c
        · -- doubled marker
          subst hdm
          have hd2 : head.drop i = d :: d :: (utf8 u ++ [d]) := by
            rw [hd', utf8, encodeRune_ascii d hm]; rfl
          rw [bodyLoop_marker head d fuel i b d _ hm hd2, if_neg (by simp)]
          have hu := ih u (by simp only [List.length_cons] at hB; omega)
            (fun r hr => hvB r (List.mem_cons_of_mem _ hr)) (i + 2) (b ++ [d]) fuel
            (by rw [← List.drop_drop, hd2]; rfl)
            (by
              simp only [utf8, encodeRune_ascii d hm, List.length_append, List.length_cons,
                List.length_nil] at hf
              omega)
          rw [hu]
          simp [rewriteLookahead, utf8, encodeRune_ascii d hm]
        · -- single inner marker
          obtain ⟨x, xs, hx, hxm⟩ := encodeRune_head d c hm hdm
          have hd2 : head.drop i = c :: x :: (xs ++ utf8 u ++ [c]) := by
            rw [hd', utf8, hx]; simp
          rw [bodyLoop_marker head c fuel i b x _ hm hd2, if_pos hxm]
          have hu := ih (d :: u) (by simp only [List.length_cons] at hB ⊢; omega) hvB (i + 1)
            (b ++ [0x20]) fuel
            (by rw [← List.drop_drop, hd']; rfl)
            (by
              simp only [utf8, encodeRune_ascii c hm, List.length_append, List.length_cons,
                List.length_nil] at hf ⊢
              omega)
          rw [hu]
          simp [rewriteLookahead, utf8, hdm, encodeRune_ascii 32 (by omega)]
    · -- an ordinary character
      have hdec : decodeRuneInString (utf8 (c :: B) ++ [m]) = (c, (encodeRune c).length) := by
        rw [utf8, List.append_assoc]
        exact decode_encode c _ hvc
      have hl : 2 ≤ (utf8 (c :: B) ++ [m]).length := by
        have := length_encodeRune_pos c
        simp only [utf8, List.length_append, List.length_cons, List.length_nil]
        omega
      rw [bodyLoop_ordinary head m fuel i b _ hd hl (by rw [hdec]; exact hc), hdec]
      have hu := ih B (by simp only [List.length_cons] at hB; omega) hvB
        (i + (encodeRune c).length) (b ++ encodeRune c) fuel
        (by rw [← List.drop_drop, hd, utf8, List.append_assoc]; exact List.drop_left' rfl)
        (by
          have := length_encodeRune_pos c
          simp only [utf8, List.length_append] at hf
          omega)
      rw [hu]
      rcases B with _ | ⟨d, u⟩
      · simp [rewriteLookahead, utf8, hc]
      · simp [rewriteLookahead, utf8, hc]

/-! ## font on one span -/

theorem marker_ascii (m : Nat) (h : m ∈ marker) : m < 0x80 := by
  simp only [marker, List.mem_cons, List.mem_singleton, List.not_mem_nil, or_false] at h
  rcases h with rfl | rfl | rfl <;> decide

theorem marker_valid (m : Nat) (h : m ∈ marker) : validRune m = true := by
  simp only [marker, List.mem_cons, List.mem_singleton, List.not_mem_nil, or_false] at h
  rcases h with rfl | rfl | rfl <;> decide

theorem marker_noSpace (m : Nat) (h : m ∈ marker) : isSpace m = false := by
  simp only [marker, List.mem_cons, List.mem_singleton, List.not_mem_nil, or_false] at h
  rcases h with rfl | rfl | rfl <;> decide

theorem marker_fast (m : Nat) (h : m ∈ marker) : m ∈ [0x60, 0x5F, 0x2A] := by
  simp only [marker, List.mem_cons, List.mem_singleton, List.not_mem_nil, or_false] at h ⊢
  rcases h with rfl | rfl | rfl <;> decide

/-- A string that contains a marker byte does not take the early return of `font`. -/
theorem font_of_marker (s : Str) (m : Nat) (hm : m ∈ marker) (hs : m ∈ s) :
    font s =
      match split s with
      | none => none
      | some words =>
        match fontWords words with
        | none => none
        | some ws => some ws.flatten := by
  unfold font
  rw [if_neg]
  intro h
  exact (indexAny_eq_neg_one s _).mp h m hs (marker_fast m hm)

/-- `font` on a string that `split` does not cut. -/
theorem font_single (s : Str) (m : Nat) (hm : m ∈ marker) (hs : m ∈ s)
    (hno : noSpace s = true) (out : Str) (hw : fontWord s = .styled out) :
    font s = some out := by
  have hne : s ≠ [] := List.ne_nil_of_mem hs
  rw [font_of_marker s m hm hs, split_noSpace s hne hno]
  simp [fontWords, hw, wordResult]

theorem noSpace_utf8 (W : List Nat) (h : ∀ r ∈ W, validRune r = true ∧ isSpace r = false) :
    noSpace (utf8 W) = true := by
  unfold noSpace
  rw [runes_utf8 W (fun r hr => (h r hr).1)]
  simp only [List.all_eq_true, Bool.not_eq_true']
  exact fun r hr => (h r hr).2

/-- The span lemma: a word made of punctuation `L`, the marker `m`, a body `B`
of characters that are not spaces, `m` again and punctuation `T` is rewritten
to `L`, the opening tag, the body rewritten, the closing tag and `T`. -/
theorem font_span (m : Nat) (o c : Str) (ht : tagsFor m = some (o, c)) (L T B : List Nat)
    (hL : ∀ r ∈ L, r ∈ punctRunes) (hT : ∀ r ∈ T, r ∈ punctRunes)
    (hB : ∀ r ∈ B, validRune r = true ∧ isSpace r = false) :
    font (utf8 L ++ m :: (utf8 B ++ m :: utf8 T)) =
      some (utf8 L ++ o ++ utf8 (rewriteLookahead m B) ++ c ++ utf8 T) := by
  have hm := marker_of_tagsFor m o c ht
  have hma := marker_ascii m hm
  have hword : utf8 L ++ m :: (utf8 B ++ m :: utf8 T) = utf8 (L ++ m :: (B ++ m :: T)) := by
    simp [utf8_append, utf8, encodeRune_ascii m hma]
  have hno : noSpace (utf8 L ++ m :: (utf8 B ++ m :: utf8 T)) = true := by
    rw [hword]
    apply noSpace_utf8
    intro r hr
    simp only [List.mem_append, List.mem_cons] at hr
    rcases hr with h | rfl | h | rfl | h
    · exact ⟨punctRunes_valid r (hL r h), punctRunes_noSpace r (hL r h)⟩
    · exact ⟨marker_valid r hm, marker_noSpace r hm⟩
    · exact hB r h
    · exact ⟨marker_valid r hm, marker_noSpace r hm⟩
    · exact ⟨punctRunes_valid r (hT r h), punctRunes_noSpace r (hT r h)⟩
  apply font_single _ m hm (by simp) hno
  have hTm : m ∉ utf8 T := fun h => utf8_punct_no_marker T hT m h hm
  rw [fontWord_span (utf8 L) m (utf8 B) (utf8 T) o c (utf8_punct_no_marker L hL) ht hTm,
    if_neg (by simp [allPunct_utf8 L hL]), if_neg (by simp [allPunct_utf8 T hT])]
  have hb := bodyLoop_utf8 m hma (m :: utf8 B ++ [m]) B.length B (le_refl _)
    (fun r hr => (hB r hr).1) 1 (utf8 L ++ o) ((utf8 B).length + 2) rfl (by omega)
  rw [hb]

/-! ## The rewriting of the body -/

theorem rewriteLookahead_cons_ne (m c : Nat) (t : List Nat) (h : c ≠ m) :
    rewriteLookahead m (c :: t) = c :: rewriteLookahead m t := by
  rcases t with _ | ⟨d, u⟩
  · simp [rewriteLookahead, h]
  · simp [rewriteLookahead, h]

/-- Characters other than the marker are copied. -/
theorem rewriteLookahead_append (m : Nat) (w rest : List Nat) (h : m ∉ w) :
    rewriteLookahead m (w ++ rest) = w ++ rewriteLookahead m rest := by
  induction w with
  | nil => rfl
  | cons c w ih =>
    have hc : c ≠ m := fun e => h (e ▸ List.mem_cons_self _ _)
    rw [List.cons_append, rewriteLookahead_cons_ne m c _ hc,
      ih (fun hm => h (List.mem_cons_of_mem _ hm)), List.cons_append]

theorem rewriteLookahead_no_marker (m : Nat) (w : List Nat) (h : m ∉ w) :
    rewriteLookahead m w = w := by
  have := rewriteLookahead_append m w [] h
  simpa [rewriteLookahead] using this

/-- A marker followed by another character becomes a space. -/
theorem rewriteLookahead_inner (m d : Nat) (u : List Nat) (h : d ≠ m) :
    rewriteLookahead m (m :: d :: u) = 0x20 :: rewriteLookahead m (d :: u) := by
  simp [rewriteLookahead, h]

/-- A doubled marker becomes one marker. -/
theorem rewriteLookahead_doubled (m : Nat) (u : List Nat) :
    rewriteLookahead m (m :: m :: u) = m :: rewriteLookahead m u := by
  simp [rewriteLookahead]

/-- Words without the marker, joined by single markers, are rewritten to the
words joined by single spaces. -/
theorem rewriteLookahead_intercalate (m : Nat) (ws : List (List Nat))
    (h : ∀ w ∈ ws, w ≠ [] ∧ m ∉ w) :
    rewriteLookahead m (List.intercalate [m] ws) = List.intercalate [0x20] ws := by
  induction ws with
  | nil => rfl
  | cons w ws ih =>
    have hw := h w (List.mem_cons_self _ _)
    rcases ws with _ | ⟨v, vs⟩
    · simpa [List.intercalate, List.intersperse] using rewriteLookahead_no_marker m w hw.2
    · have hv := h v (List.mem_cons_of_mem _ (List.mem_cons_self _ _))
      have ih' := ih (fun x hx => h x (List.mem_cons_of_mem _ hx))
      obtain ⟨d, u, hdu⟩ := List.exists_cons_of_ne_nil hv.1
      have hd : d ≠ m := by
        intro e
        apply hv.2
        rw [hdu, e]
        exact List.mem_cons_self _ _
      have e1 : List.intercalate [m] (w :: v :: vs) = w ++ m :: List.intercalate [m] (v :: vs) := by
        simp [List.intercalate, List.intersperse]
      have e2 : List.intercalate [0x20] (w :: v :: vs) =
          w ++ 0x20 :: List.intercalate [0x20] (v :: vs) := by
        simp [List.intercalate, List.intersperse]
      have e3 : ∃ rest, List.intercalate [m] (v :: vs) = d :: rest := by
        rcases vs with _ | ⟨x, xs⟩
        · exact ⟨u, by simp [List.intercalate, List.intersperse, hdu]⟩
        · exact ⟨u ++ m :: List.intercalate [m] (x :: xs), by
            simp [List.intercalate, List.intersperse, hdu]⟩
      obtain ⟨rest, e3⟩ := e3
      rw [e1, e2, rewriteLookahead_append m w _ hw.2, ← ih', e3, rewriteLookahead_inner m d rest hd]

/-! ## Claims on font -/

/-- C1, as stated, fails at `_x__`: the body is `x_`, whose rewriting from the
body alone is `x` and a space, but `font` returns `<i>x_</i>`: the marker that
ends the body is read together with the closing marker as a doubled marker. -/
theorem font_body_alone_counterexample :
    tagsFor 0x5F = some (bytes "<i>", bytes "</i>") ∧
    (∀ r ∈ [0x78, 0x5F], validRune r = true ∧ isSpace r = false) ∧
    utf8 [] ++ 0x5F :: (utf8 [0x78, 0x5F] ++ 0x5F :: utf8 []) = bytes "_x__" ∧
    font (bytes "_x__") = some (bytes "<i>x_</i>") ∧
    utf8 [] ++ bytes "<i>" ++ utf8 (rewriteSpec 0x5F [0x78, 0x5F]) ++ bytes "</i>" ++ utf8 [] =
      bytes "<i>x </i>" ∧
    font (utf8 [] ++ 0x5F :: (utf8 [0x78, 0x5F] ++ 0x5F :: utf8 [])) ≠
      some (utf8 [] ++ bytes "<i>" ++ utf8 (rewriteSpec 0x5F [0x78, 0x5F]) ++ bytes "</i>" ++ utf8 []) := by
  decide

/-- C1, amended: for every marker `m` with tags `o` and `c`, every `L` and `T`
of punctuation characters and every body `B` of characters that are not spaces,
`font` of `L m B m T` is `L`, `o`, the rewriting of `B`, `c`, `T`, where the
rewriting scans `B` left to right with the closing marker after it: a marker
followed by a second marker, the closing marker included, becomes one marker
and both are consumed, any other marker becomes a space, every other character
is copied. -/
theorem font_body (m : Nat) (o c : Str) (ht : tagsFor m = some (o, c)) (L T B : List Nat)
    (hL : ∀ r ∈ L, r ∈ punctRunes) (hT : ∀ r ∈ T, r ∈ punctRunes)
    (hB : ∀ r ∈ B, validRune r = true ∧ isSpace r = false) :
    font (utf8 L ++ m :: (utf8 B ++ m :: utf8 T)) =
      some (utf8 L ++ o ++ utf8 (rewriteLookahead m B) ++ c ++ utf8 T) :=
  font_span m o c ht L T B hL hT hB

/-- C1, amended, at `(_a___b_–`: the body `a___b` has a doubled marker and
then a single one. -/
theorem font_body_witness : font (bytes "(_a___b_–") = some (bytes "(<i>a_ b</i>–") :=
  font_body 0x5F (bytes "<i>") (bytes "</i>") rfl [0x28] [0x2013] [0x61, 0x5F, 0x5F, 0x5F, 0x62]
    (by decide) (by decide) (by decide)

theorem mem_intersperse {α : Type} (sep : α) (l : List α) (x : α)
    (h : x ∈ List.intersperse sep l) : x = sep ∨ x ∈ l := by
  induction l with
  | nil => simp [List.intersperse] at h
  | cons a l ih =>
    rcases l with _ | ⟨b, l⟩
    · simp only [List.intersperse, List.mem_singleton] at h
      exact Or.inr (h ▸ List.mem_cons_self _ _)
    · simp only [List.intersperse, List.mem_cons] at h
      rcases h with h | h | h
      · exact Or.inr (h ▸ List.mem_cons_self _ _)
      · exact Or.inl h
      · rcases ih (by simpa [List.intersperse] using h) with h | h
        · exact Or.inl h
        · exact Or.inr (List.mem_cons_of_mem _ h)

/-- C2: inner appearances of the marker become spaces.  For every marker `m`
with tags `o` and `c`, every list of non-empty words `ws` of characters that
are not spaces and not `m`, and every `T` of punctuation characters, `font` of
`m`, the words joined by `m`, `m` and `T` is `o`, the words joined by single
spaces, `c` and `T`. -/
theorem font_inner_markers (m : Nat) (o c : Str) (ht : tagsFor m = some (o, c))
    (ws : List (List Nat)) (T : List Nat)
    (hws : ∀ w ∈ ws, w ≠ [] ∧ m ∉ w ∧ ∀ r ∈ w, validRune r = true ∧ isSpace r = false)
    (hT : ∀ r ∈ T, r ∈ punctRunes) :
    font (m :: (utf8 (List.intercalate [m] ws) ++ m :: utf8 T)) =
      some (o ++ utf8 (List.intercalate [0x20] ws) ++ c ++ utf8 T) := by
  have hm := marker_of_tagsFor m o c ht
  have hB : ∀ r ∈ List.intercalate [m] ws, validRune r = true ∧ isSpace r = false := by
    intro r hr
    simp only [List.intercalate, List.mem_flatten] at hr
    obtain ⟨l, hl, hrl⟩ := hr
    rcases mem_intersperse _ _ _ hl with h | h
    · subst h
      simp only [List.mem_singleton] at hrl
      subst hrl
      exact ⟨marker_valid r hm, marker_noSpace r hm⟩
    · exact (hws l h).2.2 r hrl
  have := font_span m o c ht [] T (List.intercalate [m] ws) (by simp) hT hB
  rw [rewriteLookahead_intercalate m ws (fun w hw => ⟨(hws w hw).1, (hws w hw).2.1⟩)] at this
  simpa [utf8] using this

/-- C2 at `_this_is_italic_!`, the example of the header comment. -/
theorem font_inner_markers_witness :
    font (bytes "_this_is_italic_!") = some (bytes "<i>this is italic</i>!") :=
  font_inner_markers 0x5F (bytes "<i>") (bytes "</i>") rfl
    [[0x74, 0x68, 0x69, 0x73], [0x69, 0x73], [0x69, 0x74, 0x61, 0x6C, 0x69, 0x63]] [0x21]
    (by decide) (by decide)

/-- C3: for every marker `m` with tags `o` and `c`, every `L` and `T` of
punctuation characters and every body `B` of characters that are not spaces and
not `m` (the other two markers may occur in it), `font` of `L m B m T` is `L`,
`o`, `B`, `c`, `T`.  The body may also be empty. -/
theorem font_plain_body (m : Nat) (o c : Str) (ht : tagsFor m = some (o, c)) (L T B : List Nat)
    (hL : ∀ r ∈ L, r ∈ punctRunes) (hT : ∀ r ∈ T, r ∈ punctRunes)
    (hB : ∀ r ∈ B, validRune r = true ∧ isSpace r = false) (hm : m ∉ B) :
    font (utf8 L ++ m :: (utf8 B ++ m :: utf8 T)) =
      some (utf8 L ++ o ++ utf8 B ++ c ++ utf8 T) := by
  have := font_span m o c ht L T B hL hT hB
  rwa [rewriteLookahead_no_marker m B hm] at this

/-- C3 at `"_a*b_"!`: quotes and the exclamation mark stay outside the tags and
the asterisk in the body is left alone. -/
theorem font_plain_body_witness :
    font (bytes "\"_a*b_\"!") = some (bytes "\"<i>a*b</i>\"!") :=
  font_plain_body 0x5F (bytes "<i>") (bytes "</i>") rfl [0x22] [0x22, 0x21] [0x61, 0x2A, 0x62]
    (by decide) (by decide) (by decide) (by decide)

/-- C4: a doubled marker inside the body becomes one literal marker.  For
every marker `m` with tags `o` and `c` and every `a` and `b` of characters that
are not spaces and not `m`, `font` of `m a m m b m` is `o a m b c`. -/
theorem font_doubled_marker (m : Nat) (o c : Str) (ht : tagsFor m = some (o, c)) (a b : List Nat)
    (ha : ∀ r ∈ a, validRune r = true ∧ isSpace r = false) (hma : m ∉ a)
    (hb : ∀ r ∈ b, validRune r = true ∧ isSpace r = false) (hmb : m ∉ b) :
    font (m :: (utf8 a ++ m :: m :: (utf8 b ++ [m]))) =
      some (o ++ utf8 a ++ m :: (utf8 b ++ c)) := by
  have hm := marker_of_tagsFor m o c ht
  have hmasc := marker_ascii m hm
  have hB : ∀ r ∈ a ++ m :: m :: b, validRune r = true ∧ isSpace r = false := by
    intro r hr
    simp only [List.mem_append, List.mem_cons] at hr
    rcases hr with h | rfl | rfl | h
    · exact ha r h
    · exact ⟨marker_valid r hm, marker_noSpace r hm⟩
    · exact ⟨marker_valid r hm, marker_noSpace r hm⟩
    · exact hb r h
  have := font_span m o c ht [] [] (a ++ m :: m :: b) (by simp) (by simp) hB
  rw [rewriteLookahead_append m a _ hma, rewriteLookahead_doubled,
    rewriteLookahead_no_marker m b hmb] at this
  simpa [utf8, utf8_append, encodeRune_ascii m hmasc] using this

/-- C4 at `_a__b_`. -/
theorem font_doubled_marker_witness : font (bytes "_a__b_") = some (bytes "<i>a_b</i>") :=
  font_doubled_marker 0x5F (bytes "<i>") (bytes "</i>") rfl [0x61] [0x62]
    (by decide) (by decide) (by decide) (by decide)

/-- C10: no-marker identity.  For every string `s` that contains none of the
bytes `_`, `*` and back quote, `font s` is `s`. -/
theorem font_no_marker (s : Str) (h : ∀ x ∈ s, x ∉ marker) : font s = some s := by
  unfold font
  rw [if_pos]
  rw [indexAny_eq_neg_one]
  intro b hb hm
  apply h b hb
  simp only [marker, List.mem_cons, List.mem_singleton, List.not_mem_nil, or_false] at hm ⊢
  omega

/-- C10 at `a < b & c`. -/
theorem font_no_marker_witness : font (bytes "a < b & c") = some (bytes "a < b & c") :=
  font_no_marker (bytes "a < b & c") (by decide)

/-! ## Escaped text and tags -/

/-- A byte of `x ++ y` is a byte of `x` or a byte of `y`. -/
theorem append_eq_mid (x y pre post : Str) (b : Nat) (h : x ++ y = pre ++ b :: post) :
    (∃ p, x = pre ++ b :: p ∧ post = p ++ y) ∨ (∃ q, pre = x ++ q ∧ y = q ++ b :: post) := by
  rcases List.append_eq_append_iff.mp h with ⟨a, ha1, ha2⟩ | ⟨c, hc1, hc2⟩
  · exact Or.inr ⟨a, ha1, ha2⟩
  · rcases c with _ | ⟨z, c⟩
    · refine Or.inr ⟨[], by simpa using hc1.symm, by simpa using hc2.symm⟩
    · simp only [List.cons_append, List.cons.injEq] at hc2
      obtain ⟨rfl, rfl⟩ := hc2
      exact Or.inl ⟨c, hc1, rfl⟩

theorem ampOK_append (x y : Str) (hx : AmpOK x) (hy : AmpOK y) : AmpOK (x ++ y) := by
  intro pre post h
  rcases append_eq_mid x y pre post _ h with ⟨p, hp, rfl⟩ | ⟨q, -, hq⟩
  · obtain ⟨e, he, hpre⟩ := hx pre p hp
    exact ⟨e, he, hpre.trans (by simp)⟩
  · exact hy q post hq

theorem ltOK_append (x y : Str) (hx : LtOK x) (hy : LtOK y) : LtOK (x ++ y) := by
  intro pre post h
  rcases append_eq_mid x y pre post _ h with ⟨p, hp, rfl⟩ | ⟨q, -, hq⟩
  · obtain ⟨e, he, hpre⟩ := hx pre p hp
    exact ⟨e, he, hpre.trans (by simp)⟩
  · exact hy q post hq

theorem gtOK_append (x y : Str) (hx : GtOK x) (hy : GtOK y) : GtOK (x ++ y) := by
  intro pre post h
  rcases append_eq_mid x y pre post _ h with ⟨p, hp, -⟩ | ⟨q, rfl, hq⟩
  · exact hx pre p hp
  · obtain ⟨e, he, hsuf⟩ := hy q post hq
    exact ⟨e, he, hsuf.trans (by simp)⟩

theorem safe_append (x y : Str) (hx : Safe x) (hy : Safe y) : Safe (x ++ y) :=
  ⟨ampOK_append x y hx.1 hy.1, ltOK_append x y hx.2.1 hy.2.1, gtOK_append x y hx.2.2 hy.2.2⟩

theorem safe_nil : Safe [] := by
  refine ⟨?_, ?_, ?_⟩ <;> intro pre post h <;> simp at h

theorem safe_flatten (l : List Str) (h : ∀ x ∈ l, Safe x) : Safe l.flatten := by
  induction l with
  | nil => exact safe_nil
  | cons x l ih =>
    rw [List.flatten_cons]
    exact safe_append x _ (h x (List.mem_cons_self _ _))
      (ih (fun y hy => h y (List.mem_cons_of_mem _ hy)))

/-- Text without `<` and `>` in which every `&` begins an entity is safe. -/
theorem safe_of_ampOK (y : Str) (h1 : 0x3C ∉ y) (h2 : 0x3E ∉ y) (h3 : AmpOK y) : Safe y := by
  refine ⟨h3, ?_, ?_⟩
  · intro pre post h
    exact absurd (h ▸ by simp) h1
  · intro pre post h
    exact absurd (h ▸ by simp) h2

/-- A tag is safe: its `<` is its first byte and its `>` its last. -/
theorem safe_tag (mid : Str) (ht : 0x3C :: (mid ++ [0x3E]) ∈ tagList)
    (h1 : 0x3C ∉ mid) (h2 : 0x3E ∉ mid) (h3 : 0x26 ∉ mid) : Safe (0x3C :: (mid ++ [0x3E])) := by
  refine ⟨?_, ?_, ?_⟩
  · intro pre post h
    have : (0x26 : Nat) ∈ 0x3C :: (mid ++ [0x3E]) := h ▸ by simp
    simp only [List.mem_cons, List.mem_append, List.mem_singleton, List.not_mem_nil, or_false] at this
    rcases this with h | h | h
    · omega
    · exact absurd h h3
    · omega
  · intro pre post h
    rcases pre with _ | ⟨z, pre⟩
    · simp only [List.nil_append, List.cons.injEq, true_and] at h
      exact ⟨_, ht, by rw [h]⟩
    · simp only [List.cons_append, List.cons.injEq] at h
      have : (0x3C : Nat) ∈ mid ++ [0x3E] := h.2 ▸ by simp
      simp only [List.mem_append, List.mem_singleton] at this
      rcases this with h | h
      · exact absurd h h1
      · omega
  · intro pre post h
    rw [← List.cons_append] at h
    rcases append_eq_mid (0x3C :: mid) [0x3E] pre post _ h with ⟨p, hp, -⟩ | ⟨q, hq1, hq2⟩
    · have : (0x3E : Nat) ∈ 0x3C :: mid := hp ▸ by simp
      simp only [List.mem_cons] at this
      rcases this with h | h
      · omega
      · exact absurd h h2
    · rcases q with _ | ⟨z, q⟩
      · rw [List.append_nil] at hq1
        rw [hq1]
        exact ⟨_, ht, by simp⟩
      · simp only [List.cons_append, List.cons.injEq] at hq2
        have := congrArg List.length hq2.2
        simp only [List.length_nil, List.length_append, List.length_cons] at this
        omega

theorem safe_tagsFor (m : Nat) (o c : Str) (h : tagsFor m = some (o, c)) : Safe o ∧ Safe c := by
  unfold tagsFor at h
  split_ifs at h with h1 h2 h3
  all_goals
    simp only [Option.some.injEq, Prod.mk.injEq] at h
    obtain ⟨rfl, rfl⟩ := h
    constructor
  · exact safe_tag [0x69] (by decide) (by decide) (by decide) (by decide)
  · exact safe_tag [0x2F, 0x69] (by decide) (by decide) (by decide) (by decide)
  · exact safe_tag [0x62] (by decide) (by decide) (by decide) (by decide)
  · exact safe_tag [0x2F, 0x62] (by decide) (by decide) (by decide) (by decide)
  · exact safe_tag [0x63, 0x6F, 0x64, 0x65] (by decide) (by decide) (by decide) (by decide)
  · exact safe_tag [0x2F, 0x63, 0x6F, 0x64, 0x65] (by decide) (by decide) (by decide) (by decide)

theorem ampOK_of_not_mem (y : Str) (h : 0x26 ∉ y) : AmpOK y := by
  intro pre post e
  exact absurd (e ▸ by simp) h

theorem ampOK_entity (tail : Str) (he : 0x26 :: tail ∈ entityList) (hn : 0x26 ∉ tail) :
    AmpOK (0x26 :: tail) := by
  intro pre post h
  rcases pre with _ | ⟨z, pre⟩
  · simp only [List.nil_append, List.cons.injEq, true_and] at h
    exact ⟨_, he, by rw [h]⟩
  · simp only [List.cons_append, List.cons.injEq] at h
    exact absurd (h.2 ▸ by simp) hn

theorem escapeByte_ok (b : Nat) :
    AmpOK (escapeByte b) ∧ 0x3C ∉ escapeByte b ∧ 0x3E ∉ escapeByte b := by
  unfold escapeByte
  split_ifs with h1 h2 h3 h4 h5
  · exact ⟨ampOK_entity _ (by decide) (by decide), by decide, by decide⟩
  · exact ⟨ampOK_entity _ (by decide) (by decide), by decide, by decide⟩
  · exact ⟨ampOK_entity _ (by decide) (by decide), by decide, by decide⟩
  · exact ⟨ampOK_entity _ (by decide) (by decide), by decide, by decide⟩
  · exact ⟨ampOK_entity _ (by decide) (by decide), by decide, by decide⟩
  · refine ⟨ampOK_of_not_mem _ ?_, ?_, ?_⟩ <;>
      simp only [List.mem_singleton] <;> omega

/-- After `html.EscapeString` there is no `<` and no `>`, and every `&` begins
an entity. -/
theorem escapeString_ok (s : Str) :
    AmpOK (escapeString s) ∧ 0x3C ∉ escapeString s ∧ 0x3E ∉ escapeString s := by
  induction s with
  | nil => exact ⟨ampOK_of_not_mem _ (by simp [escapeString]), by simp [escapeString],
      by simp [escapeString]⟩
  | cons b t ih =>
    obtain ⟨a1, a2, a3⟩ := escapeByte_ok b
    obtain ⟨b1, b2, b3⟩ := ih
    refine ⟨ampOK_append _ _ a1 b1, ?_, ?_⟩
    · simp only [escapeString, List.mem_append, not_or]; exact ⟨a2, b2⟩
    · simp only [escapeString, List.mem_append, not_or]; exact ⟨a3, b3⟩

theorem ampOK_suffix (u v : Str) (h : AmpOK (u ++ v)) : AmpOK v := by
  intro pre post e
  exact h (u ++ pre) post (by rw [e]; simp)

theorem entity_tail : ∀ e ∈ entityList, ∃ tail, e = 0x26 :: tail ∧ ∀ x ∈ tail, x ∈ entBytes := by
  intro e he
  simp only [entityList, List.mem_cons, List.mem_singleton, List.not_mem_nil, or_false] at he
  rcases he with rfl | rfl | rfl | rfl | rfl <;> exact ⟨_, rfl, by decide⟩

/-- Cutting a text before a byte that cannot continue an entity keeps every
`&` before the cut at the beginning of an entity. -/
theorem ampOK_cut (u v : Str) (h : AmpOK (u ++ v)) (hv : ∀ x ∈ v.head?, x ∉ entBytes) :
    AmpOK u := by
  intro pre post e
  obtain ⟨ent, hent, hpre⟩ := h pre (post ++ v) (by rw [e]; simp)
  obtain ⟨tail, rfl, htail⟩ := entity_tail ent hent
  refine ⟨_, hent, ?_⟩
  have h1 : tail <+: post ++ v := by
    obtain ⟨w, hw⟩ := hpre
    simp only [List.cons_append, List.cons.injEq, true_and] at hw
    exact ⟨w, hw⟩
  have h2 : post <+: post ++ v := List.prefix_append _ _
  by_cases hl : tail.length ≤ post.length
  · obtain ⟨w, hw⟩ := List.prefix_of_prefix_length_le h1 h2 hl
    exact ⟨w, by rw [← hw]; simp⟩
  · exfalso
    obtain ⟨k, hk⟩ := List.prefix_of_prefix_length_le h2 h1 (by omega)
    obtain ⟨w, hw⟩ := h1
    rw [← hk, List.append_assoc] at hw
    have hv' := List.append_cancel_left hw
    rcases k with _ | ⟨z, k⟩
    · rw [List.append_nil] at hk
      rw [hk] at hl
      exact hl (le_refl _)
    · rw [← hv'] at hv
      exact hv z (by simp) (htail z (by rw [← hk]; simp))

/-! ## ASCII bytes are characters -/

theorem mem_chunkBytes (g : List (Nat × Str)) (b : Nat) (h : b ∈ chunkBytes g) :
    ∃ p ∈ g, b ∈ p.2 := by
  simp only [chunkBytes, List.mem_flatten, List.mem_map] at h
  obtain ⟨l, ⟨p, hp, rfl⟩, hb⟩ := h
  exact ⟨p, hp, hb⟩

/-- A byte of `t` below 0x80 is one of the characters of `t`. -/
theorem ascii_byte_rune (t : Str) (b : Nat) (hb : b ∈ t) (ha : b < 0x80) : b ∈ runes t := by
  rw [← chunkBytes_chunks t] at hb
  obtain ⟨p, hp, hbp⟩ := mem_chunkBytes _ b hb
  have hok := chunkOK_chunks t p hp
  rcases hok with ⟨-, h2⟩ | ⟨-, -, h3⟩
  · rw [h2, List.mem_singleton] at hbp
    rw [hbp]
    exact List.mem_map.mpr ⟨p, hp, rfl⟩
  · have := h3 b hbp
    omega

theorem entBytes_ascii : ∀ b ∈ entBytes, b < 0x80 ∧ isSpace b = false ∧ b ∉ marker := by decide

theorem allSpace_ascii (t : Str) (h : allSpace t = true) (b : Nat) (hb : b ∈ t) (ha : b < 0x80) :
    isSpace b = true := by
  simp only [allSpace, List.all_eq_true] at h
  exact h b (ascii_byte_rune t b hb ha)

theorem allPunct_no_special (t : Str) (h : allPunct t = true) :
    0x26 ∉ t ∧ 0x3C ∉ t ∧ 0x3E ∉ t := by
  rw [allPunct_iff] at h
  refine ⟨?_, ?_, ?_⟩ <;> intro hb
  · exact absurd (h _ (ascii_byte_rune t _ hb (by decide))) (by decide)
  · exact absurd (h _ (ascii_byte_rune t _ hb (by decide))) (by decide)
  · exact absurd (h _ (ascii_byte_rune t _ hb (by decide))) (by decide)

/-- The tokens of a text in which every `&` begins an entity have the same
property: `split` does not cut an entity. -/
theorem split_ampOK (s : Str) (h : AmpOK s) :
    ∃ ws, split s = some ws ∧ ws.flatten = s ∧ ∀ t ∈ ws, AmpOK t := by
  obtain ⟨ws, h1, h2, h3, h4⟩ := split_spec s
  refine ⟨ws, h1, h2, ?_⟩
  intro t ht
  obtain ⟨l1, l2, rfl⟩ := List.append_of_mem ht
  have hsuf : AmpOK (t ++ l2.flatten) := by
    apply ampOK_suffix l1.flatten
    rw [← h2] at h
    simpa using h
  rcases l2 with _ | ⟨t', l3⟩
  · simpa using hsuf
  · have hR := (List.chain'_cons.mp (List.Chain'.right_of_append h4)).1
    rcases hR with ⟨hsp, -⟩ | ⟨-, hsp⟩
    · apply ampOK_of_not_mem
      intro hb
      exact absurd (allSpace_ascii t hsp _ hb (by decide)) (by decide)
    · apply ampOK_cut t _ hsuf
      have hne := (h3 t' (by simp)).1
      obtain ⟨z, zs, rfl⟩ := List.exists_cons_of_ne_nil hne
      intro x hx
      simp only [List.flatten_cons, List.cons_append, List.head?_cons, Option.mem_def,
        Option.some.injEq] at hx
      subst hx
      intro hent
      have := entBytes_ascii z hent
      have hz := allSpace_ascii (z :: zs) hsp z (List.mem_cons_self _ _) this.1
      rw [this.2.1] at hz
      exact absurd hz (by decide)

/-! ## The loop over the body, on any bytes -/

theorem encodeRune_high (r : Nat) (h : 0x80 ≤ r) : ∀ x ∈ encodeRune r, 0x80 ≤ x := by
  unfold encodeRune
  split_ifs <;> intro x hx <;>
    simp only [List.mem_cons, List.mem_singleton, List.not_mem_nil, or_false] at hx <;> omega

theorem getLast_drop (l : Str) (m k : Nat) (h : ∀ x ∈ l.getLast?, x = m) :
    ∀ x ∈ (l.drop k).getLast?, x = m := by
  rw [List.getLast?_drop]
  split_ifs
  · intro x hx; simp at hx
  · exact h

theorem ampOK_cons (b : Nat) (R : Str) (hR : AmpOK R)
    (hb : b = 0x26 → ∃ e ∈ entityList, e <+: b :: R) : AmpOK (b :: R) := by
  intro pre post h
  rcases pre with _ | ⟨z, pre⟩
  · simp only [List.nil_append, List.cons.injEq] at h
    obtain ⟨e, he, hp⟩ := hb h.1
    exact ⟨e, he, by rw [← h.1, ← h.2]; exact hp⟩
  · simp only [List.cons_append, List.cons.injEq] at h
    exact hR pre post h.2

/-- The loop over the body returns on every body that ends with the closing
marker.  What it appends is made of spaces, markers, bytes from 0x80 on and
bytes of the body; bytes of entities at the front of the body are copied; and
every `&` appended begins an entity if that is so in the body. -/
theorem bodyLoop_general (m : Nat) (hm : m ∈ marker) (head : Str) :
    ∀ (n : Nat) (rest : Str), rest.length ≤ n → (∀ x ∈ rest.getLast?, x = m) →
      ∀ (i : Nat) (b : Str) (fuel : Nat), head.drop i = rest → rest.length < fuel →
        ∃ R, bodyLoop head m fuel i b = some (b ++ R) ∧
          (∀ x ∈ R, x = 0x20 ∨ x = m ∨ 0x80 ≤ x ∨ x ∈ rest) ∧
          (∀ q : Str, (∀ x ∈ q, x ∈ entBytes) → q <+: rest → q <+: R) ∧
          (AmpOK rest → AmpOK R) := by
  have hma := marker_ascii m hm
  have hment : m ∉ entBytes := fun h => (entBytes_ascii m h).2.2 hm
  -- a body shorter than two bytes ends the loop
  have short : ∀ (rest : Str), rest.length < 2 → (∀ x ∈ rest.getLast?, x = m) →
      ∀ (i : Nat) (b : Str) (fuel : Nat), head.drop i = rest → rest.length < fuel →
        ∃ R, bodyLoop head m fuel i b = some (b ++ R) ∧
          (∀ x ∈ R, x = 0x20 ∨ x = m ∨ 0x80 ≤ x ∨ x ∈ rest) ∧
          (∀ q : Str, (∀ x ∈ q, x ∈ entBytes) → q <+: rest → q <+: R) ∧
          (AmpOK rest → AmpOK R) := by
    intro rest hlen hlast i b fuel hd hf
    obtain ⟨fuel, rfl⟩ : ∃ k, fuel = k + 1 := ⟨fuel - 1, by omega⟩
    refine ⟨[], ?_, by simp, ?_, fun _ => ampOK_of_not_mem _ (by simp)⟩
    · rw [bodyLoop_done head m fuel i b (by rw [hd]; exact hlen)]
      simp
    · intro q hq hpre
      rcases q with _ | ⟨z, q⟩
      · exact List.prefix_refl _
      · exfalso
        rcases rest with _ | ⟨x, _ | ⟨y, rest⟩⟩
        · simp at hpre
        · have hx : x = m := hlast x (by simp)
          obtain ⟨w, hw⟩ := hpre
          simp only [List.cons_append, List.cons.injEq] at hw
          exact hment (hx ▸ hw.1 ▸ hq z (List.mem_cons_self _ _))
        · simp only [List.length_cons] at hlen; omega
  intro n
  induction n with
  | zero =>
    intro rest hn
    exact short rest (by omega)
  | succ n ih =>
    intro rest hn hlast i b fuel hd hf
    by_cases hlen : rest.length < 2
    · exact short rest hlen hlast i b fuel hd hf
    obtain ⟨fuel, rfl⟩ : ∃ k, fuel = k + 1 := ⟨fuel - 1, by omega⟩
    rcases rest with _ | ⟨x, _ | ⟨y, rest2⟩⟩
    · simp at hlen
    · simp at hlen
    simp only [List.length_cons] at hn hf
    by_cases hx : x = m
    · subst hx
      rw [bodyLoop_marker head x fuel i b y rest2 hma hd]
      by_cases hy : y = x
      · -- doubled marker
        subst hy
        rw [if_neg (by simp)]
        obtain ⟨R, h1, h2, h3, h4⟩ := ih rest2 (by omega)
          (by have := getLast_drop _ y 2 hlast; simpa using this)
          (i + 2) (b ++ [y]) fuel (by rw [← List.drop_drop, hd]; rfl) (by omega)
        refine ⟨y :: R, by rw [h1]; simp, ?_, ?_, ?_⟩
        · intro z hz
          rcases List.mem_cons.mp hz with rfl | hz
          · exact Or.inr (Or.inl rfl)
          · rcases h2 z hz with h | h | h | h
            · exact Or.inl h
            · exact Or.inr (Or.inl h)
            · exact Or.inr (Or.inr (Or.inl h))
            · exact Or.inr (Or.inr (Or.inr (by simp [h])))
        · intro q hq hpre
          rcases q with _ | ⟨z, q⟩
          · exact List.nil_prefix
          · exfalso
            obtain ⟨w, hw⟩ := hpre
            simp only [List.cons_append, List.cons.injEq] at hw
            exact hment (hw.1 ▸ hq z (List.mem_cons_self _ _))
        · intro hA
          refine ampOK_cons y R (h4 (ampOK_suffix [y, y] rest2 hA)) ?_
          intro e
          rw [e] at hm
          exact absurd hm (by decide)
      · -- single inner marker
        rw [if_pos hy]
        obtain ⟨R, h1, h2, h3, h4⟩ := ih (y :: rest2) (by simp only [List.length_cons]; omega)
          (by have := getLast_drop _ x 1 hlast; simpa using this)
          (i + 1) (b ++ [0x20]) fuel (by rw [← List.drop_drop, hd]; rfl)
          (by simp only [List.length_cons]; omega)
        refine ⟨0x20 :: R, by rw [h1]; simp, ?_, ?_, ?_⟩
        · intro z hz
          rcases List.mem_cons.mp hz with rfl | hz
          · exact Or.inl rfl
          · rcases h2 z hz with h | h | h | h
            · exact Or.inl h
            · exact Or.inr (Or.inl h)
            · exact Or.inr (Or.inr (Or.inl h))
            · exact Or.inr (Or.inr (Or.inr (List.mem_cons_of_mem _ h)))
        · intro q hq hpre
          rcases q with _ | ⟨z, q⟩
          · exact List.nil_prefix
          · exfalso
            obtain ⟨w, hw⟩ := hpre
            simp only [List.cons_append, List.cons.injEq] at hw
            exact hment (hw.1 ▸ hq z (List.mem_cons_self _ _))
        · intro hA
          refine ampOK_cons 0x20 R (h4 (ampOK_suffix [x] (y :: rest2) hA)) ?_
          intro e; omega
    · -- an ordinary character
      obtain ⟨w1, w2, d3, d4⟩ := decode_spec x (y :: rest2)
      have hr : (decodeRuneInString (x :: y :: rest2)).1 ≠ m := by
        by_cases hxa : x < 0x80
        · rw [d3 hxa]; exact hx
        · have := (d4 (by omega)).1; omega
      rw [bodyLoop_ordinary head m fuel i b _ hd (by simp) hr]
      obtain ⟨R, h1, h2, h3, h4⟩ := ih ((x :: y :: rest2).drop (decodeRuneInString (x :: y :: rest2)).2)
        (by simp only [List.length_drop, List.length_cons]; omega)
        (getLast_drop _ m _ hlast)
        (i + (decodeRuneInString (x :: y :: rest2)).2)
        (b ++ encodeRune (decodeRuneInString (x :: y :: rest2)).1) fuel
        (by rw [← List.drop_drop, hd])
        (by simp only [List.length_drop, List.length_cons]; omega)
      refine ⟨encodeRune (decodeRuneInString (x :: y :: rest2)).1 ++ R, by rw [h1]; simp, ?_, ?_, ?_⟩
      · intro z hz
        rcases List.mem_append.mp hz with hz | hz
        · by_cases hxa : x < 0x80
          · rw [d3 hxa, encodeRune_ascii x hxa, List.mem_singleton] at hz
            exact Or.inr (Or.inr (Or.inr (hz ▸ List.mem_cons_self _ _)))
          · exact Or.inr (Or.inr (Or.inl (encodeRune_high _ (d4 (by omega)).1 z hz)))
        · rcases h2 z hz with h | h | h | h
          · exact Or.inl h
          · exact Or.inr (Or.inl h)
          · exact Or.inr (Or.inr (Or.inl h))
          · exact Or.inr (Or.inr (Or.inr (List.mem_of_mem_drop h)))
      · intro q hq hpre
        rcases q with _ | ⟨z, q⟩
        · exact List.nil_prefix
        · obtain ⟨w, hw⟩ := hpre
          simp only [List.cons_append, List.cons.injEq] at hw
          have hz := entBytes_ascii z (hq z (List.mem_cons_self _ _))
          have hxa : x < 0x80 := hw.1 ▸ hz.1
          rw [d3 hxa] at h3 ⊢
          rw [encodeRune_ascii x hxa, ← hw.1]
          have := h3 q (fun u hu => hq u (List.mem_cons_of_mem _ hu)) ⟨w, by simpa using hw.2⟩
          obtain ⟨v, hv⟩ := this
          exact ⟨v, by simp [hv]⟩
      · intro hA
        by_cases hxa : x < 0x80
        · rw [d3 hxa] at h3 h4 ⊢
          rw [encodeRune_ascii x hxa]
          refine ampOK_cons x R (h4 (by simpa using ampOK_suffix [x] (y :: rest2) hA)) ?_
          intro hamp
          obtain ⟨e, he, hpre⟩ := hA [] (y :: rest2) (by simp [hamp])
          obtain ⟨tail, rfl, htail⟩ := entity_tail e he
          refine ⟨_, he, ?_⟩
          obtain ⟨w, hw⟩ := hpre
          simp only [List.cons_append, List.cons.injEq, true_and] at hw
          obtain ⟨v, hv⟩ := h3 tail htail ⟨w, by simpa using hw⟩
          exact ⟨v, by simp [hamp, hv]⟩
        · apply ampOK_append
          · apply ampOK_of_not_mem
            intro hmem
            have := encodeRune_high _ (d4 (by omega)).1 _ hmem
            omega
          · apply h4
            have hsplit := List.take_append_drop (decodeRuneInString (x :: y :: rest2)).2 (x :: y :: rest2)
            rw [← hsplit] at hA
            exact ampOK_suffix _ _ hA

/-! ## Every word -/

/-- The iteration of the loop `Word`, for any word: it takes one of five
`continue Word`, or the word is `L m B m T` with `m` the first marker byte of
the word, no `m` in `T`, punctuation only in `L` and `T`, and the iteration
writes the buffer of the loop over the body, the closing tag and `T`. -/
theorem fontWord_cases (word : Str) :
    (fontWord word = .short ∨ fontWord word = .noMarker ∨ fontWord word = .leadNotPunct ∨
      fontWord word = .loneMarker ∨ fontWord word = .tailNotPunct) ∨
    (∃ L m B T o c, word = L ++ m :: (B ++ m :: T) ∧ tagsFor m = some (o, c) ∧
      (∀ x ∈ L, x ∉ marker) ∧ m ∉ T ∧ allPunct L = true ∧ allPunct T = true ∧
      fontWord word =
        match bodyLoop (m :: B ++ [m]) m (B.length + 2) 1 (L ++ o) with
        | none => .fault
        | some b => .styled (b ++ c ++ T)) := by
  by_cases hlen : word.length < 2
  · left; left
    unfold fontWord
    rw [if_pos hlen]
  by_cases hfirst : indexAny word marker = -1
  · left; right; left
    unfold fontWord
    simp only [hfirst]
    rw [if_neg hlen, if_pos trivial]
  obtain ⟨L, m, rest, rfl, hL, hm⟩ := indexAny_split word marker hfirst
  obtain ⟨o, c, ht⟩ := tagsFor_marker m hm
  by_cases hP : allPunct L = true
  swap
  · left; right; right; left
    exact fontWord_lead L m rest o c hL ht (by omega) (by simpa using hP)
  by_cases hrest : m ∈ rest
  swap
  · left; right; right; right; left
    exact fontWord_lone L m rest o c hL ht (by omega) hP hrest
  obtain ⟨B, T, rfl, hT⟩ := split_at_last m rest hrest
  have hspan := fontWord_span L m B T o c hL ht hT
  rw [if_neg (by simp [hP])] at hspan
  by_cases hPT : allPunct T = true
  · right
    rw [if_neg (by simp [hPT])] at hspan
    exact ⟨L, m, B, T, o, c, rfl, ht, hL, hT, hP, hPT, hspan⟩
  · left; right; right; right; right
    rw [if_pos (by simpa using hPT)] at hspan
    exact hspan

/-- The iteration of the loop `Word` leaves a word of escaped text safe: it
does not fault, and in its result every `<` and `>` belongs to a tag and every
`&` begins an entity. -/
theorem fontWord_safe (word : Str) (hA : AmpOK word) (h1 : 0x3C ∉ word) (h2 : 0x3E ∉ word) :
    ∃ out, wordResult word (fontWord word) = some out ∧ Safe out := by
  have hsame : Safe word := safe_of_ampOK word h1 h2 hA
  rcases fontWord_cases word with h | ⟨L, m, B, T, o, c, rfl, ht, hL, hT, hPL, hPT, hw⟩
  · rcases h with h | h | h | h | h <;> exact ⟨word, by rw [h]; rfl, hsame⟩
  · have hm := marker_of_tagsFor m o c ht
    have hrest : ∀ x ∈ (B ++ [m]).getLast?, x = m := by
      intro x hx
      simpa using hx.symm
    obtain ⟨R, hR, hbytes, -, hamp⟩ := bodyLoop_general m hm (m :: B ++ [m]) (B ++ [m]).length
      (B ++ [m]) (le_refl _) hrest 1 (L ++ o) (B.length + 2) rfl (by simp)
    rw [hR] at hw
    refine ⟨L ++ o ++ R ++ c ++ T, by rw [hw]; rfl, ?_⟩
    -- the parts of the word
    have hAB : AmpOK B := by
      have h3 : AmpOK (B ++ m :: T) := by
        have := ampOK_suffix (L ++ [m]) (B ++ m :: T) (by simpa using hA)
        exact this
      apply ampOK_cut B (m :: T) h3
      intro x hx
      simp only [List.head?_cons, Option.mem_def, Option.some.injEq] at hx
      subst hx
      exact fun h => (entBytes_ascii _ h).2.2 hm
    have hm26 : m ≠ 0x26 := by
      intro e; rw [e] at hm; exact absurd hm (by decide)
    have hm3C : m ≠ 0x3C := by
      intro e; rw [e] at hm; exact absurd hm (by decide)
    have hm3E : m ≠ 0x3E := by
      intro e; rw [e] at hm; exact absurd hm (by decide)
    have hABm : AmpOK (B ++ [m]) :=
      ampOK_append B [m] hAB (ampOK_of_not_mem _ (by simpa using hm26.symm))
    have hRsafe : Safe R := by
      apply safe_of_ampOK R _ _ (hamp hABm)
      · intro hx
        rcases hbytes _ hx with h | h | h | h
        · omega
        · exact hm3C h.symm
        · omega
        · apply h1
          simp only [List.mem_append, List.mem_cons, List.mem_singleton, List.not_mem_nil,
            or_false] at h ⊢
          rcases h with h | h
          · exact Or.inr (Or.inr (Or.inl h))
          · exact absurd h.symm hm3C
      · intro hx
        rcases hbytes _ hx with h | h | h | h
        · omega
        · exact hm3E h.symm
        · omega
        · apply h2
          simp only [List.mem_append, List.mem_cons, List.mem_singleton, List.not_mem_nil,
            or_false] at h ⊢
          rcases h with h | h
          · exact Or.inr (Or.inr (Or.inl h))
          · exact absurd h.symm hm3E
    have hLs := allPunct_no_special L hPL
    have hTs := allPunct_no_special T hPT
    have hLsafe : Safe L := safe_of_ampOK L hLs.2.1 hLs.2.2 (ampOK_of_not_mem L hLs.1)
    have hTsafe : Safe T := safe_of_ampOK T hTs.2.1 hTs.2.2 (ampOK_of_not_mem T hTs.1)
    obtain ⟨ho, hc⟩ := safe_tagsFor m o c ht
    exact safe_append _ _ (safe_append _ _ (safe_append _ _ (safe_append _ _ hLsafe ho) hRsafe) hc)
      hTsafe

theorem fontWords_safe (ws : List Str) (h : ∀ t ∈ ws, AmpOK t ∧ 0x3C ∉ t ∧ 0x3E ∉ t) :
    ∃ outs, fontWords ws = some outs ∧ ∀ o ∈ outs, Safe o := by
  induction ws with
  | nil => exact ⟨[], rfl, by simp⟩
  | cons w ws ih =>
    obtain ⟨hA, h1, h2⟩ := h w (List.mem_cons_self _ _)
    obtain ⟨out, hout, hsafe⟩ := fontWord_safe w hA h1 h2
    obtain ⟨outs, houts, hsafes⟩ := ih (fun t ht => h t (List.mem_cons_of_mem _ ht))
    refine ⟨out :: outs, by simp [fontWords, hout, houts], ?_⟩
    intro o ho
    rcases List.mem_cons.mp ho with rfl | ho
    · exact hsafe
    · exact hsafes o ho

/-- On escaped text `font` returns, and its result is safe. -/
theorem font_safe (e : Str) (hA : AmpOK e) (h1 : 0x3C ∉ e) (h2 : 0x3E ∉ e) :
    ∃ out, font e = some out ∧ Safe out := by
  unfold font
  by_cases hfast : indexAny e [0x60, 0x5F, 0x2A] = -1
  · rw [if_pos hfast]
    exact ⟨e, rfl, safe_of_ampOK e h1 h2 hA⟩
  · rw [if_neg hfast]
    obtain ⟨ws, hsplit, hflat, hws⟩ := split_ampOK e hA
    have hbytes : ∀ t ∈ ws, AmpOK t ∧ 0x3C ∉ t ∧ 0x3E ∉ t := by
      intro t ht
      refine ⟨hws t ht, ?_, ?_⟩
      · intro hx
        exact h1 (hflat ▸ List.mem_flatten.mpr ⟨t, ht, hx⟩)
      · intro hx
        exact h2 (hflat ▸ List.mem_flatten.mpr ⟨t, ht, hx⟩)
    obtain ⟨outs, houts, hsafe⟩ := fontWords_safe ws hbytes
    rw [hsplit]
    simp only [houts]
    exact ⟨outs.flatten, rfl, safe_flatten outs hsafe⟩

/-! ## Claims on style -/

/-- C5: for every input string `s`, `style s` returns, and in its result
every `<` is the first byte and every `>` the last byte of an occurrence of
one of the tags `<i>`, `</i>`, `<b>`, `</b>`, `<code>`, `</code>`, and every
`&` begins one of the entities `&amp;`, `&lt;`, `&gt;`, `&#34;`, `&#39;`. -/
theorem style_escaped (s : Str) :
    ∃ out, style s = some out ∧
      (∀ pre post, out = pre ++ 0x3C :: post → ∃ t ∈ tagList, t <+: 0x3C :: post) ∧
      (∀ pre post, out = pre ++ 0x3E :: post → ∃ t ∈ tagList, t <:+ pre ++ [0x3E]) ∧
      (∀ pre post, out = pre ++ 0x26 :: post → ∃ e ∈ entityList, e <+: 0x26 :: post) := by
  obtain ⟨hA, h1, h2⟩ := escapeString_ok s
  obtain ⟨out, hout, hamp, hlt, hgt⟩ := font_safe (escapeString s) hA h1 h2
  exact ⟨out, hout, hlt, hgt, hamp⟩

/-- C6 fails at the string `"_word_"` between double quotes, and between
single quotes: `html.EscapeString` turns each quote into an entity, whose
characters are not in the punctuation set, so `font` leaves the word alone. -/
theorem style_quoted_word :
    style (bytes "\"_word_\"") = some (bytes "&#34;_word_&#34;") ∧
    style (bytes "'_word_'") = some (bytes "&#39;_word_&#39;") ∧
    fontWord (bytes "&#34;_word_&#34;") = .leadNotPunct ∧
    font (bytes "\"_word_\"") = some (bytes "\"<i>word</i>\"") := by
  decide

/-! ## Further claims on font -/

theorem rewriteLookahead_last (m : Nat) : rewriteLookahead m [m] = [m] := by
  simp [rewriteLookahead]

/-- C19: when the body ends in a single marker, that marker is read with the
closing marker as a doubled marker and written as a marker, not as a space.
For every marker `m` with tags `o` and `c` and every `a` of characters that
are not spaces and not `m`, `font` of `m a m m` is `o a m c`. -/
theorem font_body_end_marker (m : Nat) (o c : Str) (ht : tagsFor m = some (o, c)) (a : List Nat)
    (ha : ∀ r ∈ a, validRune r = true ∧ isSpace r = false) (hma : m ∉ a) :
    font (m :: (utf8 a ++ [m, m])) = some (o ++ utf8 a ++ m :: c) := by
  have hm := marker_of_tagsFor m o c ht
  have hmasc := marker_ascii m hm
  have hB : ∀ r ∈ a ++ [m], validRune r = true ∧ isSpace r = false := by
    intro r hr
    simp only [List.mem_append, List.mem_singleton] at hr
    rcases hr with h | rfl
    · exact ha r h
    · exact ⟨marker_valid r hm, marker_noSpace r hm⟩
  have := font_span m o c ht [] [] (a ++ [m]) (by simp) (by simp) hB
  rw [rewriteLookahead_append m a _ hma, rewriteLookahead_last] at this
  simpa [utf8, utf8_append, encodeRune_ascii m hmasc] using this

/-- C19 at `_x__`. -/
theorem font_body_end_marker_witness : font (bytes "_x__") = some (bytes "<i>x_</i>") :=
  font_body_end_marker 0x5F (bytes "<i>") (bytes "</i>") rfl [0x78] (by decide) (by decide)

/-- C20: a token made of two equal markers between punctuation gives an empty
pair of tags.  For every marker `m` with tags `o` and `c` and every `L` and `T`
of punctuation characters, `font` of `L m m T` is `L o c T`. -/
theorem font_empty_body (m : Nat) (o c : Str) (ht : tagsFor m = some (o, c)) (L T : List Nat)
    (hL : ∀ r ∈ L, r ∈ punctRunes) (hT : ∀ r ∈ T, r ∈ punctRunes) :
    font (utf8 L ++ m :: m :: utf8 T) = some (utf8 L ++ o ++ c ++ utf8 T) := by
  have := font_span m o c ht L T [] hL hT (by simp)
  simpa [utf8, rewriteLookahead] using this

/-- C20 at `**.`. -/
theorem font_empty_body_witness : font (bytes "**.") = some (bytes "<b></b>.") :=
  font_empty_body 0x2A (bytes "<b>") (bytes "</b>") rfl [] [0x2E] (by decide) (by decide)

/-! ## No fault -/

/-- The iteration of the loop `Word` never faults and never takes the default
case of the switch. -/
theorem fontWord_total (word : Str) :
    wordResult word (fontWord word) = some (wordOut word) ∧ fontWord word ≠ .fault ∧
      fontWord word ≠ .switchDefault := by
  rcases fontWord_cases word with h | ⟨L, m, B, T, o, c, rfl, ht, hL, hT, hPL, hPT, hw⟩
  · rcases h with h | h | h | h | h <;>
      exact ⟨by simp [wordOut, h, wordResult], by rw [h]; simp, by rw [h]; simp⟩
  · have hm := marker_of_tagsFor m o c ht
    have hrest : ∀ x ∈ (B ++ [m]).getLast?, x = m := by
      intro x hx
      simpa using hx.symm
    obtain ⟨R, hR, -⟩ := bodyLoop_general m hm (m :: B ++ [m]) (B ++ [m]).length
      (B ++ [m]) (le_refl _) hrest 1 (L ++ o) (B.length + 2) rfl (by simp)
    rw [hR] at hw
    exact ⟨by simp [wordOut, hw, wordResult], by rw [hw]; simp, by rw [hw]; simp⟩

theorem fontWords_total (ws : List Str) : fontWords ws = some (ws.map wordOut) := by
  induction ws with
  | nil => rfl
  | cons w ws ih => simp [fontWords, (fontWord_total w).1, ih]

/-- The full path of `font` returns on every string: the words of `split`,
each rewritten, joined. -/
theorem fontFull_eq (s : Str) :
    fontFull s =
      some (((groupRuns (fun p : Nat × Str => isSpace p.1) (chunks s)).map chunkBytes).map
        wordOut).flatten := by
  unfold fontFull
  rw [split_eq_groupRuns]
  simp only [fontWords_total]

/-- C17: `font` and `split` cannot fault.  For every string `s`, `split s` and
`font s` return; and for every word, the iteration of the loop `Word` has no
index or slice out of range (`word[:first]`, `word[first:]`, `word[0]`,
`word[:1]`, `word[:last+1]`, `word[last+1:]`, and `head[i+1]` in the loop over
the body), and it does not take the default case of the switch. -/
theorem font_no_fault (s word : Str) :
    (∃ ws, split s = some ws) ∧ (∃ out, font s = some out) ∧
      fontWord word ≠ .fault ∧ fontWord word ≠ .switchDefault := by
  refine ⟨⟨_, split_eq_groupRuns s⟩, ?_, (fontWord_total word).2⟩
  unfold font
  split_ifs
  · exact ⟨s, rfl⟩
  · have := fontFull_eq s
    unfold fontFull at this
    exact ⟨_, this⟩

/-! ## Words left alone -/

/-- `font` on a string that `split` does not cut, in terms of the iteration
for its only word. -/
theorem font_one_word (s : Str) (m : Nat) (hm : m ∈ marker) (hs : m ∈ s)
    (hno : noSpace s = true) : font s = some (wordOut s) := by
  have hne : s ≠ [] := List.ne_nil_of_mem hs
  rw [font_of_marker s m hm hs, split_noSpace s hne hno]
  simp [fontWords, (fontWord_total s).1]

theorem wordOut_short (w : Str) (h : w.length < 2) : wordOut w = w := by
  have : fontWord w = .short := by
    unfold fontWord
    rw [if_pos h]
  simp [wordOut, this, wordResult]

theorem wordOut_lead (L : Str) (m : Nat) (rest : Str) (hL : ∀ x ∈ L, x ∉ marker)
    (hm : m ∈ marker) (hP : allPunct L = false) :
    wordOut (L ++ m :: rest) = L ++ m :: rest := by
  by_cases hlen : (L ++ m :: rest).length < 2
  · exact wordOut_short _ hlen
  · obtain ⟨o, c, ht⟩ := tagsFor_marker m hm
    have := fontWord_lead L m rest o c hL ht (by omega) hP
    simp [wordOut, this, wordResult]

theorem wordOut_lone (L : Str) (m : Nat) (rest : Str) (hL : ∀ x ∈ L, x ∉ marker)
    (hm : m ∈ marker) (hrest : m ∉ rest) :
    wordOut (L ++ m :: rest) = L ++ m :: rest := by
  by_cases hlen : (L ++ m :: rest).length < 2
  · exact wordOut_short _ hlen
  by_cases hP : allPunct L = true
  · obtain ⟨o, c, ht⟩ := tagsFor_marker m hm
    have := fontWord_lone L m rest o c hL ht (by omega) hP hrest
    simp [wordOut, this, wordResult]
  · exact wordOut_lead L m rest hL hm (by simpa using hP)

theorem wordOut_tail (L : Str) (m : Nat) (B T : Str) (hL : ∀ x ∈ L, x ∉ marker)
    (hm : m ∈ marker) (hT : m ∉ T) (hP : allPunct T = false) :
    wordOut (L ++ m :: (B ++ m :: T)) = L ++ m :: (B ++ m :: T) := by
  by_cases hPL : allPunct L = true
  · obtain ⟨o, c, ht⟩ := tagsFor_marker m hm
    have := fontWord_span L m B T o c hL ht hT
    rw [if_neg (by simp [hPL]), if_pos (by simp [hP])] at this
    simp [wordOut, this, wordResult]
  · exact wordOut_lead L m _ hL hm (by simpa using hPL)

theorem allPunct_false_of (t : Str) (h : ∃ r ∈ runes t, r ∉ punctRunes) : allPunct t = false := by
  obtain ⟨r, hr, hn⟩ := h
  by_contra hc
  exact hn ((allPunct_iff t).mp (by simpa using hc) r hr)

theorem noSpace_singleton_marker (m : Nat) (hm : m ∈ marker) : noSpace [m] = true := by
  simp only [marker, List.mem_cons, List.mem_singleton, List.not_mem_nil, or_false] at hm
  rcases hm with rfl | rfl | rfl <;> decide

/-- The early return of `font`. -/
theorem font_fast (s : Str) (h : ∀ x ∈ s, x ∉ marker) : font s = some s := by
  unfold font
  rw [if_pos]
  rw [indexAny_eq_neg_one]
  intro b hb hm
  apply h b hb
  simp only [marker, List.mem_cons, List.mem_singleton, List.not_mem_nil, or_false] at hm ⊢
  omega

/-- C11: a lone marker is left alone.  For every token `t` without whitespace
in which the first marker byte `m` of `t` occurs only once (`t` is `L m rest`
with no marker in `L` and no `m` in `rest`), `font t` is `t`; and `font` of
every string of one byte is that string. -/
theorem font_lone_marker (L : Str) (m : Nat) (rest : Str) (b : Nat)
    (hL : ∀ x ∈ L, x ∉ marker) (hm : m ∈ marker) (hrest : m ∉ rest)
    (hno : noSpace (L ++ m :: rest) = true) :
    font (L ++ m :: rest) = some (L ++ m :: rest) ∧ font [b] = some [b] := by
  constructor
  · rw [font_one_word _ m hm (by simp) hno, wordOut_lone L m rest hL hm hrest]
  · by_cases hb : b ∈ marker
    · rw [font_one_word [b] b hb (by simp) (noSpace_singleton_marker b hb),
        wordOut_short [b] (by simp)]
    · exact font_fast [b] (by simpa using hb)

/-- C11 at `_word`, and at the one-byte string `_`. -/
theorem font_lone_marker_witness :
    font (bytes "_word") = some (bytes "_word") ∧ font (bytes "_") = some (bytes "_") :=
  font_lone_marker [] 0x5F (bytes "word") 0x5F (by decide) (by decide) (by decide) (by decide)

/-- C12: for every token `t` without whitespace in which some character
before the first marker byte is not in the punctuation set (`t` is `L m rest`
with no marker in `L`, `m` a marker, and a character of `L` outside the set),
`font t` is `t`, markers included. -/
theorem font_lead_not_punct (L : Str) (m : Nat) (rest : Str)
    (hL : ∀ x ∈ L, x ∉ marker) (hm : m ∈ marker) (hbad : ∃ r ∈ runes L, r ∉ punctRunes)
    (hno : noSpace (L ++ m :: rest) = true) :
    font (L ++ m :: rest) = some (L ++ m :: rest) := by
  rw [font_one_word _ m hm (by simp) hno,
    wordOut_lead L m rest hL hm (allPunct_false_of L hbad)]

/-- C12 at `a_b_`. -/
theorem font_lead_not_punct_witness : font (bytes "a_b_") = some (bytes "a_b_") :=
  font_lead_not_punct (bytes "a") 0x5F (bytes "b_") (by decide) (by decide) (by decide)
    (by decide)

/-- C13: for every token `t` without whitespace whose first marker byte is `m`
(`t` is `L m rest` with no marker in `L`), if some character after the last
occurrence of `m` in `t` (`t` is `P m T` with no `m` in `T`) is not in the
punctuation set, `font t` is `t`. -/
theorem font_tail_not_punct (L : Str) (m : Nat) (rest P T : Str)
    (hL : ∀ x ∈ L, x ∉ marker) (hm : m ∈ marker)
    (hlast : L ++ m :: rest = P ++ m :: T) (hT : m ∉ T)
    (hbad : ∃ r ∈ runes T, r ∉ punctRunes)
    (hno : noSpace (L ++ m :: rest) = true) :
    font (L ++ m :: rest) = some (L ++ m :: rest) := by
  rw [font_one_word _ m hm (by simp) hno]
  rcases append_eq_mid L (m :: rest) P T m hlast with ⟨p, hp, -⟩ | ⟨q, -, hq⟩
  · exact absurd hm (hL m (by rw [hp]; simp))
  · rcases q with _ | ⟨z, q⟩
    · simp only [List.nil_append, List.cons.injEq, true_and] at hq
      rw [hq, wordOut_lone L m T hL hm hT]
    · simp only [List.cons_append, List.cons.injEq] at hq
      obtain ⟨rfl, rfl⟩ := hq
      rw [wordOut_tail L m q T hL hm hT (allPunct_false_of T hbad)]

/-- C13 at `_a_*b*`. -/
theorem font_tail_not_punct_witness : font (bytes "_a_*b*") = some (bytes "_a_*b*") :=
  font_tail_not_punct [] 0x5F (bytes "a_*b*") (bytes "_a") (bytes "*b*") (by decide) (by decide)
    (by decide) (by decide) (by decide) (by decide)

/-! ## The early return -/

theorem wordOut_no_marker (w : Str) (h : ∀ x ∈ w, x ∉ marker) : wordOut w = w := by
  by_cases hlen : w.length < 2
  · exact wordOut_short w hlen
  · have hi : indexAny w marker = -1 := (indexAny_eq_neg_one w marker).mpr h
    have : fontWord w = .noMarker := by
      unfold fontWord
      simp only [hi]
      rw [if_neg hlen, if_pos trivial]
    simp [wordOut, this, wordResult]

/-- The full path of `font` leaves a string without marker bytes as it is. -/
theorem fontFull_no_marker (s : Str) (h : ∀ x ∈ s, x ∉ marker) : fontFull s = some s := by
  obtain ⟨ws, h1, h2, -, -⟩ := split_spec s
  have hws : ws.map wordOut = ws := by
    have : ∀ w ∈ ws, wordOut w = id w := by
      intro w hw
      apply wordOut_no_marker
      intro x hx
      exact h x (h2 ▸ List.mem_flatten.mpr ⟨w, hw, hx⟩)
    rw [List.map_congr_left this, List.map_id]
  unfold fontFull
  rw [h1]
  simp only [fontWords_total, hws, h2]

/-- C16: the fast path is observably equivalent to the full path.  For every
string `s`, `font s` is the result of the same function with the initial early
return removed. -/
theorem font_eq_fontFull (s : Str) : font s = fontFull s := by
  unfold font
  by_cases hfast : indexAny s [0x60, 0x5F, 0x2A] = -1
  · rw [if_pos hfast, fontFull_no_marker]
    intro x hx hm
    exact (indexAny_eq_neg_one s _).mp hfast x hx (marker_fast x hm)
  · rw [if_neg hfast]
    rfl

/-! ## The sequence of tags -/

/-- `font`, for every string, in terms of the words of `split`. -/
theorem font_eq_words (s : Str) :
    ∃ ws, split s = some ws ∧ ws.flatten = s ∧ font s = some (ws.map wordOut).flatten := by
  obtain ⟨ws, h1, h2, -, -⟩ := split_spec s
  refine ⟨ws, h1, h2, ?_⟩
  have hfull : fontFull s = some (ws.map wordOut).flatten := by
    unfold fontFull
    rw [h1]
    simp only [fontWords_total]
  unfold font
  by_cases hfast : indexAny s [0x60, 0x5F, 0x2A] = -1
  · rw [if_pos hfast, ← hfull, fontFull_no_marker]
    intro x hx hm
    exact (indexAny_eq_neg_one s _).mp hfast x hx (marker_fast x hm)
  · rw [if_neg hfast, ← hfull]
    rfl

theorem tagsOf_no_lt (x y : Str) (h : 0x3C ∉ x) : tagsOf (x ++ y) = tagsOf y := by
  induction x with
  | nil => rfl
  | cons b x ih =>
    have hb : ¬ (0x3C = b) := fun e => h (e ▸ List.mem_cons_self _ _)
    have hx : 0x3C ∉ x := fun e => h (List.mem_cons_of_mem _ e)
    rw [List.cons_append, tagsOf]
    have : tagList.find? (fun tg => tg.isPrefixOf (b :: (x ++ y))) = none := by
      have hb' : (60 == b) = false := by simpa using hb
      simp [tagList, List.find?, List.isPrefixOf, hb']
    rw [this]
    exact ih hx

theorem tagsOf_tag (m : Nat) (o c : Str) (ht : tagsFor m = some (o, c)) (y : Str) :
    tagsOf (o ++ y) = o :: tagsOf y ∧ tagsOf (c ++ y) = c :: tagsOf y ∧
      tagPairs.contains (o, c) = true := by
  unfold tagsFor at ht
  split_ifs at ht with h1 h2 h3
  all_goals
    simp only [Option.some.injEq, Prod.mk.injEq] at ht
    obtain ⟨rfl, rfl⟩ := ht
    refine ⟨?_, ?_, by decide⟩
  · have := tagsOf_no_lt [0x69, 0x3E] y (by decide)
    simp only [List.cons_append, List.nil_append] at this ⊢
    rw [tagsOf]
    simp [tagList, List.find?, List.isPrefixOf, this]
  · have := tagsOf_no_lt [0x2F, 0x69, 0x3E] y (by decide)
    simp only [List.cons_append, List.nil_append] at this ⊢
    rw [tagsOf]
    simp [tagList, List.find?, List.isPrefixOf, this]
  · have := tagsOf_no_lt [0x62, 0x3E] y (by decide)
    simp only [List.cons_append, List.nil_append] at this ⊢
    rw [tagsOf]
    simp [tagList, List.find?, List.isPrefixOf, this]
  · have := tagsOf_no_lt [0x2F, 0x62, 0x3E] y (by decide)
    simp only [List.cons_append, List.nil_append] at this ⊢
    rw [tagsOf]
    simp [tagList, List.find?, List.isPrefixOf, this]
  · have := tagsOf_no_lt [0x63, 0x6F, 0x64, 0x65, 0x3E] y (by decide)
    simp only [List.cons_append, List.nil_append] at this ⊢
    rw [tagsOf]
    simp [tagList, List.find?, List.isPrefixOf, this]
  · have := tagsOf_no_lt [0x2F, 0x63, 0x6F, 0x64, 0x65, 0x3E] y (by decide)
    simp only [List.cons_append, List.nil_append] at this ⊢
    rw [tagsOf]
    simp [tagList, List.find?, List.isPrefixOf, this]

/-- The result of the iteration for a word without `<`: the word itself, or
punctuation, an opening tag, a body, the closing tag of the same kind and
punctuation, with no `<` outside the two tags. -/
theorem wordOut_shape (word : Str) (h1 : 0x3C ∉ word) :
    (wordOut word = word) ∨
    (∃ m o c L R T, tagsFor m = some (o, c) ∧ wordOut word = L ++ o ++ R ++ c ++ T ∧
      0x3C ∉ L ∧ 0x3C ∉ R ∧ 0x3C ∉ T) := by
  rcases fontWord_cases word with h | ⟨L, m, B, T, o, c, rfl, ht, hL, hT, hPL, hPT, hw⟩
  · left
    rcases h with h | h | h | h | h <;> simp [wordOut, h, wordResult]
  · right
    have hm := marker_of_tagsFor m o c ht
    have hrest : ∀ x ∈ (B ++ [m]).getLast?, x = m := by
      intro x hx
      simpa using hx.symm
    obtain ⟨R, hR, hbytes, -, -⟩ := bodyLoop_general m hm (m :: B ++ [m]) (B ++ [m]).length
      (B ++ [m]) (le_refl _) hrest 1 (L ++ o) (B.length + 2) rfl (by simp)
    rw [hR] at hw
    have hm3C : m ≠ 0x3C := by
      intro e; rw [e] at hm; exact absurd hm (by decide)
    refine ⟨m, o, c, L, R, T, ht, by simp [wordOut, hw, wordResult], ?_, ?_, ?_⟩
    · exact fun h => h1 (by simp [h])
    · intro hx
      rcases hbytes _ hx with h | h | h | h
      · omega
      · exact hm3C h.symm
      · omega
      · apply h1
        simp only [List.mem_append, List.mem_cons, List.mem_singleton, List.not_mem_nil,
          or_false] at h ⊢
        rcases h with h | h
        · exact Or.inr (Or.inr (Or.inl h))
        · exact absurd h.symm hm3C
    · exact fun h => h1 (by simp [h])

/-- The tags in the words of `font`, joined, come in pairs. -/
theorem pairedTags_words (ws : List Str) (h : ∀ w ∈ ws, 0x3C ∉ w) :
    pairedTags (tagsOf (ws.map wordOut).flatten) = true := by
  induction ws with
  | nil => rfl
  | cons w ws ih =>
    have ih' := ih (fun x hx => h x (List.mem_cons_of_mem _ hx))
    have hw := h w (List.mem_cons_self _ _)
    rw [List.map_cons, List.flatten_cons]
    rcases wordOut_shape w hw with h0 | ⟨m, o, c, L, R, T, ht, hout, hL, hR, hT⟩
    · rw [h0, tagsOf_no_lt _ _ hw]
      exact ih'
    · rw [hout]
      simp only [List.append_assoc]
      rw [tagsOf_no_lt _ _ hL, (tagsOf_tag m o c ht _).1, tagsOf_no_lt _ _ hR,
        (tagsOf_tag m o c ht _).2.1, tagsOf_no_lt _ _ hT]
      simp only [pairedTags, (tagsOf_tag m o c ht []).2.2, Bool.true_and]
      exact ih'

/-- C18: markup never nests and is always closed.  For every input string
`s`, `style s` returns, and the sequence of the tags that occur in the result,
read left to right, is a concatenation of pairs, an opening tag followed by
the closing tag of the same kind: `<i>` `</i>`, `<b>` `</b>` or `<code>`
`</code>`. -/
theorem style_tags_paired (s : Str) :
    ∃ out, style s = some out ∧ pairedTags (tagsOf out) = true := by
  obtain ⟨-, h1, -⟩ := escapeString_ok s
  obtain ⟨ws, -, hflat, hfont⟩ := font_eq_words (escapeString s)
  refine ⟨_, hfont, pairedTags_words ws ?_⟩
  intro w hw hx
  exact h1 (hflat ▸ List.mem_flatten.mpr ⟨w, hw, hx⟩)

/-! ## strings.Fields -/

theorem groupRuns_congr {α : Type} (cls cls' : α → Bool)
    (h : ∀ a b, cls a = cls b ↔ cls' a = cls' b) (l : List α) :
    groupRuns cls' l = groupRuns cls l := by
  induction l with
  | nil => rfl
  | cons a l ih =>
    rw [groupRuns, groupRuns, ih]
    rcases groupRuns cls l with _ | ⟨g, gs⟩
    · rfl
    · rcases g with _ | ⟨b, g⟩
      · simp
      · simp only [List.head?_cons, Option.map_some', Option.some.injEq]
        by_cases hc : cls b = cls a
        · rw [if_pos hc, if_pos ((h b a).mp hc)]
        · rw [if_neg hc, if_neg (fun e => hc ((h b a).mpr e))]

/-- A rune that satisfies `f` begins no field. -/
theorem filter_groupRuns_skip (f : Nat → Bool) (a : Nat × Str) (t : List (Nat × Str))
    (ha : f a.1 = true) :
    (groupRuns (fun p : Nat × Str => f p.1) (a :: t)).filter (isField f) =
      (groupRuns (fun p : Nat × Str => f p.1) t).filter (isField f) := by
  rw [groupRuns]
  rcases groupRuns (fun p : Nat × Str => f p.1) t with _ | ⟨g, gs⟩
  · simp [isField, ha]
  · rcases g with _ | ⟨b, g⟩
    · simp [isField, ha]
    · simp only [List.head?_cons, Option.map_some', Option.some.injEq]
      by_cases hc : f b.1 = f a.1
      · rw [if_pos hc]
        simp [List.filter, isField, ha, hc]
      · rw [if_neg hc]
        simp [List.filter, isField, ha]

/-- The loop of `strings.FieldsFunc` returns the maximal runs of runes that do
not satisfy `f`. -/
theorem fieldsLoop_groupRuns (f : Nat → Bool) (cs : List (Nat × Str)) :
    fieldsLoop f none cs =
      ((groupRuns (fun p : Nat × Str => f p.1) cs).filter (isField f)).map chunkBytes ∧
    ∀ (a : Nat × Str) (gc : List (Nat × Str)), (∀ b ∈ a :: gc, f b.1 = false) →
      fieldsLoop f (some (chunkBytes (a :: gc))) cs =
        ((groupRuns (fun p : Nat × Str => f p.1) (a :: gc ++ cs)).filter (isField f)).map
          chunkBytes := by
  induction cs with
  | nil =>
    refine ⟨rfl, ?_⟩
    intro a gc h
    have ha := h a (List.mem_cons_self _ _)
    rw [groupRuns_append _ a gc [] (fun b hb => by
      show f b.1 = f a.1
      rw [h b (List.mem_cons_of_mem _ hb), ha]) (by simp)]
    simp [fieldsLoop, groupRuns, isField, ha]
  | cons p t ih =>
    obtain ⟨r, c⟩ := p
    obtain ⟨ihN, ihS⟩ := ih
    by_cases hf : f r = true
    · constructor
      · rw [fieldsLoop, if_pos hf, filter_groupRuns_skip f (r, c) t hf]
        exact ihN
      · intro a gc h
        have ha := h a (List.mem_cons_self _ _)
        rw [fieldsLoop, if_pos hf]
        rw [groupRuns_append _ a gc ((r, c) :: t) (fun b hb => by
          show f b.1 = f a.1
          rw [h b (List.mem_cons_of_mem _ hb), ha]) (by simp [ha, hf])]
        rw [List.filter_cons_of_pos (by simp [isField, ha]),
          filter_groupRuns_skip f (r, c) t hf, List.map_cons, ← ihN]
    · have hf' : f r = false := by simpa using hf
      constructor
      · rw [fieldsLoop, if_neg hf]
        have := ihS (r, c) [] (by simpa using hf')
        simpa [chunkBytes] using this
      · intro a gc h
        rw [fieldsLoop, if_neg hf]
        have := ihS a (gc ++ [(r, c)]) (by
          intro b hb
          simp only [List.mem_cons, List.mem_append, List.mem_singleton, List.not_mem_nil,
            or_false] at hb
          rcases hb with rfl | hb | rfl
          · exact h _ (List.mem_cons_self _ _)
          · exact h b (List.mem_cons_of_mem _ hb)
          · exact hf')
        simp only [List.cons_append, List.append_assoc, List.singleton_append,
          List.nil_append] at this ⊢
        rw [← this]
        simp [chunkBytes]

/-- A token of `split` is free of spaces exactly when its first rune is not a
space. -/
theorem run_noSpace (s : Str) (x : List (Nat × Str))
    (hx : x ∈ groupRuns (fun p : Nat × Str => isSpace p.1) (chunks s)) :
    noSpace (chunkBytes x) = isField isSpace x := by
  have hc := chunks_of_run s x hx
  obtain ⟨a, t, rfl, hcl⟩ := groupRuns_homogeneous _ _ x hx
  simp only [noSpace, runes, hc, isField, List.head?_cons]
  cases h : isSpace a.1
  · simp only [Bool.not_false, List.all_eq_true, List.mem_map, forall_exists_index, and_imp,
      forall_apply_eq_imp_iff₂, Bool.not_eq_true']
    intro b hb
    have := hcl b hb
    simp only [] at this
    rw [this, h]
  · simp [h]

/-- C15: `split` is like `strings.Fields` but also returns the runs of spaces.
For every string `s`, the tokens of `split s` without whitespace, in order,
are the fields of `s` as `strings.Fields` returns them, and the remaining
tokens, in order, are the maximal runs of whitespace of `s`; all tokens
together concatenate to `s`. -/
theorem split_fields (s : Str) :
    ∃ ws, split s = some ws ∧ ws.flatten = s ∧
      ws.filter noSpace = fields s ∧
      ws.filter (fun t => !noSpace t) = fieldsFunc (fun r => !isSpace r) s := by
  refine ⟨_, split_eq_groupRuns s, ?_, ?_, ?_⟩
  · rw [flatten_map_chunkBytes, flatten_groupRuns, chunkBytes_chunks]
  · rw [List.filter_map, fields, fieldsFunc, (fieldsLoop_groupRuns isSpace (chunks s)).1]
    congr 1
    apply List.filter_congr
    intro x hx
    exact run_noSpace s x hx
  · rw [List.filter_map, fieldsFunc, (fieldsLoop_groupRuns _ (chunks s)).1,
      groupRuns_congr (fun p : Nat × Str => isSpace p.1) (fun p : Nat × Str => !isSpace p.1)
        (by intro a b; simp)]
    congr 1
    apply List.filter_congr
    intro x hx
    simp only [Function.comp, run_noSpace s x hx]
    obtain ⟨a, t, rfl, -⟩ := groupRuns_homogeneous _ _ x hx
    simp [isField]

/-! ## Decoding a concatenation -/

/-- Bytes appended to a string change its first rune only when the string
alone ends inside an encoding and the first byte appended is a continuation
byte. -/
theorem decode_append_cases (b : Nat) (t y : Str) :
    decodeRuneInString ((b :: t) ++ y) = decodeRuneInString (b :: t) ∨
    (decodeRuneInString (b :: t) = (runeError, 1) ∧
      ∃ z zs, y = z :: zs ∧ 0x80 ≤ z ∧ z ≤ 0xBF) := by
  rcases y with _ | ⟨z, zs⟩
  · left; rw [List.append_nil]
  -- a string cut inside an encoding, followed by `z`
  have short : decodeRuneInString (b :: t) = (runeError, 1) →
      (¬ (0x80 ≤ z ∧ z ≤ 0xBF) → decodeRuneInString ((b :: t) ++ z :: zs) = (runeError, 1)) →
      decodeRuneInString ((b :: t) ++ z :: zs) = decodeRuneInString (b :: t) ∨
      (decodeRuneInString (b :: t) = (runeError, 1) ∧
        ∃ z' zs', z :: zs = z' :: zs' ∧ 0x80 ≤ z' ∧ z' ≤ 0xBF) := by
    intro h1 h2
    by_cases hz : 0x80 ≤ z ∧ z ≤ 0xBF
    · exact Or.inr ⟨h1, z, zs, rfl, hz.1, hz.2⟩
    · left; rw [h1, h2 hz]
  by_cases h1 : b < 0x80
  · left; rw [List.cons_append, decode_ascii b _ h1, decode_ascii b _ h1]
  by_cases h2 : b < 0xC2 ∨ 0xF5 ≤ b
  · left
    rw [List.cons_append, decode_bad _ (firstInfo_bad (by omega)),
      decode_bad _ (firstInfo_bad (by omega))]
  by_cases h3 : b < 0xE0
  · have hf := @firstInfo_two b (by omega) h3
    rcases t with _ | ⟨s1, t1⟩
    · apply short (decode_short [] hf (by omega) (by simp))
      intro hz
      simp only [List.cons_append, List.nil_append]
      rw [decode_sz2 hf, if_pos (by omega)]
    · left
      simp only [List.cons_append]
      rw [decode_sz2 hf, decode_sz2 hf]
  by_cases h4 : b < 0xF0
  · obtain ⟨lo, hi, hf, l1, l2, -⟩ := @firstInfo_three b (by omega) h4
    rcases t with _ | ⟨s1, _ | ⟨s2, t2⟩⟩
    · apply short (decode_short [] hf (by omega) (by simp))
      intro hz
      rcases zs with _ | ⟨z2, zs⟩
      · exact decode_short _ hf (by omega) (by simp)
      · simp only [List.cons_append, List.nil_append]
        rw [decode_sz3 hf, if_pos (by omega)]
    · apply short (decode_short [s1] hf (by omega) (by simp))
      intro hz
      simp only [List.cons_append, List.nil_append]
      rw [decode_sz3 hf]
      split_ifs <;> first | rfl | (exfalso; omega)
    · left
      simp only [List.cons_append]
      rw [decode_sz3 hf, decode_sz3 hf]
  · obtain ⟨lo, hi, hf, l1, l2, -⟩ := @firstInfo_four b (by omega) (by omega)
    rcases t with _ | ⟨s1, _ | ⟨s2, _ | ⟨s3, t3⟩⟩⟩
    · apply short (decode_short [] hf (by omega) (by simp))
      intro hz
      rcases zs with _ | ⟨z2, _ | ⟨z3, zs⟩⟩
      · exact decode_short _ hf (by omega) (by simp)
      · exact decode_short _ hf (by omega) (by simp)
      · simp only [List.cons_append, List.nil_append]
        rw [decode_sz4 hf, if_pos (by omega)]
    · apply short (decode_short [s1] hf (by omega) (by simp))
      intro hz
      rcases zs with _ | ⟨z2, zs⟩
      · exact decode_short _ hf (by omega) (by simp)
      · simp only [List.cons_append, List.nil_append]
        rw [decode_sz4 hf]
        split_ifs <;> first | rfl | (exfalso; omega)
    · apply short (decode_short [s1, s2] hf (by omega) (by simp))
      intro hz
      simp only [List.cons_append, List.nil_append]
      rw [decode_sz4 hf]
      split_ifs <;> first | rfl | (exfalso; omega)
    · left
      simp only [List.cons_append]
      rw [decode_sz4 hf, decode_sz4 hf]

/-- The runes of a concatenation are the runes of its parts, when the first
part has no invalid byte or the second does not begin with a continuation
byte. -/
theorem chunks_append (x y : Str)
    (h : (∀ p ∈ chunks x, p.1 ≠ runeError) ∨ (∀ z ∈ y.head?, z < 0x80 ∨ 0xBF < z)) :
    chunks (x ++ y) = chunks x ++ chunks y := by
  induction x using chunks_induction with
  | nil => rfl
  | cons b t ih =>
    obtain ⟨w1, w2, -, -⟩ := decode_spec b t
    have hdec : decodeRuneInString ((b :: t) ++ y) = decodeRuneInString (b :: t) := by
      rcases decode_append_cases b t y with h0 | ⟨herr, z, zs, rfl, hz1, hz2⟩
      · exact h0
      · exfalso
        rcases h with h | h
        · apply h _ (by rw [chunks_cons]; exact List.mem_cons_self _ _)
          rw [herr]
        · have := h z (by simp)
          omega
    have h' : (∀ p ∈ chunks ((b :: t).drop (decodeRuneInString (b :: t)).2), p.1 ≠ runeError) ∨
        (∀ z ∈ y.head?, z < 0x80 ∨ 0xBF < z) := by
      rcases h with h | h
      · left
        intro p hp
        exact h p (by rw [chunks_cons]; exact List.mem_cons_of_mem _ hp)
      · exact Or.inr h
    have e1 : ((b :: t) ++ y).take (decodeRuneInString (b :: t)).2 =
        (b :: t).take (decodeRuneInString (b :: t)).2 :=
      List.take_append_of_le_length (by simp only [List.length_cons]; omega)
    have e2 : ((b :: t) ++ y).drop (decodeRuneInString (b :: t)).2 =
        (b :: t).drop (decodeRuneInString (b :: t)).2 ++ y :=
      List.drop_append_of_le_length (by simp only [List.length_cons]; omega)
    have hc := chunks_cons b (t ++ y)
    rw [← List.cons_append, hdec, e1, e2, ih h'] at hc
    rw [hc, chunks_cons b t, List.cons_append]

/-! ## Whitespace between words -/

/-- A decoded space has no marker byte. -/
theorem space_chunk_no_marker (p : Nat × Str) (hok : ChunkOK p) (hsp : isSpace p.1 = true) :
    ∀ x ∈ p.2, x ∉ marker := by
  intro x hx hm
  rcases hok with ⟨-, h2⟩ | ⟨-, -, h3⟩
  · rw [h2, List.mem_singleton] at hx
    rw [← hx, marker_noSpace x hm] at hsp
    exact absurd hsp (by decide)
  · have := h3 x hx
    have := marker_ascii x hm
    omega

theorem runsFrom_cons (cur : Str) (prev : Bool) (r : Nat) (c : Str) (t : List (Nat × Str)) :
    runsFrom cur prev ((r, c) :: t) =
      if ((isSpace r != prev) && !cur.isEmpty) = true then cur :: runsFrom c (isSpace r) t
      else runsFrom (cur ++ c) (isSpace r) t := rfl

theorem runsFrom_nil_prev (p q : Bool) (cs : List (Nat × Str)) :
    runsFrom [] p cs = runsFrom [] q cs := by
  rcases cs with _ | ⟨⟨r, c⟩, t⟩
  · rfl
  · simp [runsFrom]

/-- Spaces read before a run of spaces are written as they are. -/
theorem words_space_prefix (cs : List (Nat × Str)) (hok : ∀ p ∈ cs, ChunkOK p) :
    ∀ (x y : Str), (∀ b ∈ x, b ∉ marker) → (∀ b ∈ y, b ∉ marker) →
      ((runsFrom (x ++ y) true cs).map wordOut).flatten =
        x ++ ((runsFrom y true cs).map wordOut).flatten := by
  induction cs with
  | nil =>
    intro x y hx hy
    have hxy : ∀ b ∈ x ++ y, b ∉ marker := by
      intro b hb
      rcases List.mem_append.mp hb with h | h
      · exact hx b h
      · exact hy b h
    by_cases hy0 : y = []
    · subst hy0
      by_cases hx0 : x = []
      · subst hx0; rfl
      · simp [runsFrom, hx0, wordOut_no_marker x hx]
    · have : x ++ y ≠ [] := by simp [hy0]
      simp [runsFrom, hy0, this, wordOut_no_marker _ hxy, wordOut_no_marker y hy]
  | cons p t ih =>
    intro x y hx hy
    obtain ⟨r, c⟩ := p
    have hokt : ∀ p ∈ t, ChunkOK p := fun p hp => hok p (List.mem_cons_of_mem _ hp)
    by_cases hr : isSpace r = true
    · have hc := space_chunk_no_marker (r, c) (hok _ (List.mem_cons_self _ _)) hr
      have hyc : ∀ b ∈ y ++ c, b ∉ marker := by
        intro b hb
        rcases List.mem_append.mp hb with h | h
        · exact hy b h
        · exact hc b h
      have := ih hokt x (y ++ c) hx hyc
      rw [runsFrom_cons, runsFrom_cons, if_neg (by simp [hr]), if_neg (by simp [hr]), hr,
        List.append_assoc]
      exact this
    · have hr' : isSpace r = false := by simpa using hr
      by_cases hx0 : x = []
      · subst hx0; simp
      by_cases hy0 : y = []
      · subst hy0
        simp [runsFrom, hr', hx0, wordOut_no_marker x hx]
      · have hxy : ∀ b ∈ x ++ y, b ∉ marker := by
          intro b hb
          rcases List.mem_append.mp hb with h | h
          · exact hx b h
          · exact hy b h
        have : x ++ y ≠ [] := by simp [hy0]
        simp [runsFrom, hr', hy0, this, wordOut_no_marker _ hxy, wordOut_no_marker y hy]

/-- A run of spaces after spaces already read is written as it is, and the
words after it are rewritten as on their own. -/
theorem words_space_run (B : List (Nat × Str)) (hB : ∀ p ∈ B, ChunkOK p)
    (W : List (Nat × Str)) (hW : ∀ p ∈ W, ChunkOK p ∧ isSpace p.1 = true) :
    ∀ (cur : Str), (∀ b ∈ cur, b ∉ marker) →
      ((runsFrom cur true (W ++ B)).map wordOut).flatten =
        cur ++ chunkBytes W ++ ((runsFrom [] false B).map wordOut).flatten := by
  induction W with
  | nil =>
    intro cur hcur
    have := words_space_prefix B hB cur [] hcur (by simp)
    simp only [List.append_nil] at this
    rw [List.nil_append, this, chunkBytes_nil, List.append_nil, runsFrom_nil_prev true false]
  | cons p W ih =>
    intro cur hcur
    obtain ⟨r, c⟩ := p
    obtain ⟨hok, hr⟩ := hW (r, c) (List.mem_cons_self _ _)
    have hc := space_chunk_no_marker (r, c) hok hr
    have hr' : isSpace r = true := hr
    have := ih (fun p hp => hW p (List.mem_cons_of_mem _ hp)) (cur ++ c) (by
      intro b hb
      rcases List.mem_append.mp hb with h | h
      · exact hcur b h
      · exact hc b h)
    rw [List.cons_append, runsFrom_cons, if_neg (by simp [hr']), hr', this, chunkBytes_cons]
    simp

/-- Words, a run of spaces, words: the words before and after the spaces are
rewritten as on their own and the spaces are written as they are. -/
theorem words_around_spaces (B : List (Nat × Str)) (hB : ∀ p ∈ B, ChunkOK p)
    (W : List (Nat × Str)) (hW : ∀ p ∈ W, ChunkOK p ∧ isSpace p.1 = true) (hne : W ≠ [])
    (A : List (Nat × Str)) (hA : ∀ p ∈ A, ChunkOK p) :
    ∀ (cur : Str) (prev : Bool), (prev = true → ∀ b ∈ cur, b ∉ marker) →
      ((runsFrom cur prev (A ++ W ++ B)).map wordOut).flatten =
        ((runsFrom cur prev A).map wordOut).flatten ++ chunkBytes W ++
          ((runsFrom [] false B).map wordOut).flatten := by
  induction A with
  | nil =>
    intro cur prev hinv
    obtain ⟨⟨r, c⟩, W', rfl⟩ := List.exists_cons_of_ne_nil hne
    obtain ⟨hok, hr⟩ := hW (r, c) (List.mem_cons_self _ _)
    have hr' : isSpace r = true := hr
    have hc := space_chunk_no_marker (r, c) hok hr
    have hW' : ∀ p ∈ W', ChunkOK p ∧ isSpace p.1 = true :=
      fun p hp => hW p (List.mem_cons_of_mem _ hp)
    by_cases hcur : cur = []
    · subst hcur
      have := words_space_run B hB W' hW' c hc
      rw [List.nil_append, List.cons_append, runsFrom_cons, if_neg (by simp), hr',
        List.nil_append, this, chunkBytes_cons]
      simp [runsFrom]
    · cases prev
      · have := words_space_run B hB W' hW' c hc
        rw [List.nil_append, List.cons_append, runsFrom_cons, if_pos (by simp [hr', hcur]), hr',
          List.map_cons, List.flatten_cons, this, chunkBytes_cons]
        simp [runsFrom, hcur]
      · have hm := hinv rfl
        have := words_space_run B hB W' hW' (cur ++ c) (by
          intro b hb
          rcases List.mem_append.mp hb with h | h
          · exact hm b h
          · exact hc b h)
        rw [List.nil_append, List.cons_append, runsFrom_cons, if_neg (by simp [hr']), hr', this,
          chunkBytes_cons]
        simp [runsFrom, hcur, wordOut_no_marker cur hm]
  | cons p A ih =>
    intro cur prev hinv
    obtain ⟨r, c⟩ := p
    have hok := hA (r, c) (List.mem_cons_self _ _)
    have hA' : ∀ p ∈ A, ChunkOK p := fun p hp => hA p (List.mem_cons_of_mem _ hp)
    have hcm : isSpace r = true → ∀ b ∈ c, b ∉ marker :=
      fun h => space_chunk_no_marker (r, c) hok h
    rw [List.cons_append, List.cons_append, runsFrom_cons, runsFrom_cons]
    by_cases hcut : ((isSpace r != prev) && !cur.isEmpty) = true
    · rw [if_pos hcut, if_pos hcut]
      simp only [List.map_cons, List.flatten_cons, List.append_assoc]
      have := ih hA' c (isSpace r) hcm
      simp only [List.append_assoc] at this
      rw [this]
    · rw [if_neg hcut, if_neg hcut]
      apply ih hA'
      intro hsp b hb
      rcases List.mem_append.mp hb with h | h
      · by_cases hcur : cur = []
        · subst hcur; simp at h
        · have hp : prev = true := by
            have hne' : cur.isEmpty = false := by simpa using hcur
            simp only [hne', Bool.not_false, Bool.and_true, bne_iff_ne, ne_eq,
              Decidable.not_not] at hcut
            rw [← hcut, hsp]
          exact hinv hp b h
      · exact hcm hsp b h

/-- `font`, for every string, as the loop of `split` without indices and the
rewriting of each word. -/
theorem font_eq_runs (s : Str) :
    font s = some ((runsFrom [] false (chunks s)).map wordOut).flatten := by
  obtain ⟨ws, h1, -, h3⟩ := font_eq_words s
  rw [split_eq_runsFrom] at h1
  rw [h3, ← Option.some.inj h1]

/-- A string of spaces does not begin with a continuation byte, and none of
its runes is the error rune. -/
theorem allSpace_chunks (ws : Str) (hsp : allSpace ws = true) :
    (∀ p ∈ chunks ws, ChunkOK p ∧ isSpace p.1 = true) ∧
    (∀ p ∈ chunks ws, p.1 ≠ runeError) ∧
    (∀ z ∈ ws.head?, z < 0x80 ∨ 0xBF < z) := by
  have hall : ∀ p ∈ chunks ws, isSpace p.1 = true := by
    intro p hp
    simp only [allSpace, runes, List.all_eq_true, List.mem_map, forall_exists_index, and_imp,
      forall_apply_eq_imp_iff₂] at hsp
    exact hsp p hp
  refine ⟨fun p hp => ⟨chunkOK_chunks ws p hp, hall p hp⟩, ?_, ?_⟩
  · intro p hp e
    have := hall p hp
    rw [e] at this
    exact absurd this (by decide)
  · intro z hz
    rcases ws with _ | ⟨b, t⟩
    · simp at hz
    · simp only [List.head?_cons, Option.mem_def, Option.some.injEq] at hz
      subst hz
      by_contra hcon
      have h1 := hall _ (by rw [chunks_cons]; exact List.mem_cons_self _ _)
      simp only [] at h1
      rw [decode_bad t (firstInfo_bad (by omega))] at h1
      exact absurd h1 (by decide)

/-- C14: tokens are processed independently and whitespace passes through
verbatim.  For every strings `a` and `b` and every non-empty string `ws` of
whitespace only, `font a` and `font b` return and `font (a ++ ws ++ b)` is
`font a`, `ws`, `font b`. -/
theorem font_around_whitespace (a ws b : Str) (hne : ws ≠ []) (hsp : allSpace ws = true) :
    ∃ x y, font a = some x ∧ font b = some y ∧ font (a ++ ws ++ b) = some (x ++ ws ++ y) := by
  obtain ⟨hW, herr, hhead⟩ := allSpace_chunks ws hsp
  refine ⟨_, _, font_eq_runs a, font_eq_runs b, ?_⟩
  have hch : chunks (a ++ ws ++ b) = chunks a ++ chunks ws ++ chunks b := by
    rw [List.append_assoc, chunks_append a (ws ++ b) (Or.inr (by
        rcases ws with _ | ⟨z, zs⟩
        · exact absurd rfl hne
        · simpa using hhead)),
      chunks_append ws b (Or.inl herr), List.append_assoc]
  have hWne : chunks ws ≠ [] := by
    intro e
    have := chunkBytes_chunks ws
    rw [e] at this
    exact hne this.symm
  rw [font_eq_runs, hch,
    words_around_spaces (chunks b) (chunkOK_chunks b) (chunks ws) hW hWne (chunks a)
      (chunkOK_chunks a) [] false (by simp),
    chunkBytes_chunks]

/-- C14 at `_a_`, a tab and a space, `*b*`. -/
theorem font_around_whitespace_witness :
    ∃ x y, font (bytes "_a_") = some x ∧ font (bytes "*b*") = some y ∧
      font (bytes "_a_" ++ bytes "\t " ++ bytes "*b*") = some (x ++ bytes "\t " ++ y) :=
  font_around_whitespace (bytes "_a_") (bytes "\t ") (bytes "*b*") (by decide) (by decide)
end Present
